import Mathlib

/-!
Verification of the photo-processor pipeline core against its specification.

The definitions below are a shallow embedding of the Python sources:

* `pipeline/memory_manager.py` — chunk geometry (`calculate_chunks`), the
  per-edge overlap margins computed by `process_in_chunks`, the hard-trim
  merge (`merge_chunks`) and the chunked driver (`process_large_image`);
* `pipeline/pipeline_manager.py` — the node graph, its mutation operations,
  `validate_pipeline`, `save_pipeline`/`load_pipeline` and `process_image`;
* `pipeline/base_processor.py` — `BaseProcessor.process`;
* `pipeline/processing_queue.py` — the priority queue, `add_item`,
  dequeue order and `retry_failed`.

Machine integers of the source are modelled as `Nat`/`Int`; `numpy` images
are modelled as a height, a width, and a pixel function; code that can
raise is modelled with `Option`/`Except`.
-/

namespace PhotoProc

/-! ## Images

A `numpy` image array is modelled by its shape and its pixel values.
Pixel reads outside the shape never occur in the statements below.
-/

/-- An in-memory image: shape plus pixel contents (one scalar per pixel;
channels are irrelevant to every claim and are dropped). -/
structure Image where
  height : Nat
  width : Nat
  pix : Nat → Nat → Int

/-! ## MemoryManager: chunk geometry

Embedding of `MemoryManager.calculate_chunks` (memory_manager.py lines
130-171).  `chunk_overlap` is the instance constant `self.chunk_overlap =
128`.  The Python code computes `math.ceil(dim / (chunk_size - overlap))`
chunks per axis; starts are multiples of the stride
`chunk_size - overlap`; each end is `min(start + chunk_size, dim)` except
that the last chunk of an axis is extended to the axis length. -/

/-- The fixed overlap margin `self.chunk_overlap = 128`. -/
def chunk_overlap : Nat := 128

/-- Ceiling division, the value of `math.ceil(a / b)` for nonnegative
integers with `b > 0`. -/
def ceilDiv (a b : Nat) : Nat := (a + b - 1) / b

/-- One entry of the list returned by `calculate_chunks`:
a `(y_start, y_end, x_start, x_end)` tuple. -/
structure Bounds where
  y_start : Nat
  y_end : Nat
  x_start : Nat
  x_end : Nat
deriving DecidableEq, Repr

/-- Chunk start on one axis: `idx * (chunk_size - overlap)`. -/
def axis_start (stride i : Nat) : Nat := i * stride

/-- Chunk end on one axis: `min(start + chunk_size, dim)`, overridden to
`dim` for the last chunk of the axis (`calculate_chunks` lines 158-167). -/
def axis_end (dim chunkSize stride n i : Nat) : Nat :=
  if i = n - 1 then dim else min (axis_start stride i + chunkSize) dim

/-- Number of chunks on one axis:
`max(1, math.ceil(dim / (chunk_size - overlap)))`. -/
def num_axis_chunks (dim stride : Nat) : Nat := max 1 (ceilDiv dim stride)

/-- `MemoryManager.calculate_chunks`: the row-major list of chunk bounds
for a `height × width` image. -/
def calculate_chunks (height width chunkSize : Nat) : List Bounds :=
  let stride := chunkSize - chunk_overlap
  let yC := num_axis_chunks height stride
  let xC := num_axis_chunks width stride
  (List.range yC).flatMap fun yi =>
    (List.range xC).map fun xi =>
      { y_start := axis_start stride yi
        y_end := axis_end height chunkSize stride yC yi
        x_start := axis_start stride xi
        x_end := axis_end width chunkSize stride xC xi }

/-! ## Overlap margins and merging

`process_in_chunks` (lines 187-207) attaches to each chunk the per-edge
overlap amounts: `chunk_overlap` on an edge that does not touch the image
border, `0` otherwise.  `merge_chunks` (lines 209-241) writes, for each
chunk, the region trimmed by those margins into a zero-initialised output;
the data it copies from the processed chunk is offset so that output pixel
`(y, x)` receives processed pixel `(y - y_start, x - x_start)`. -/

/-- An `ImageChunk` minus its pixel data: bounds and overlap margins as
computed by `process_in_chunks`. -/
structure ChunkInfo where
  bounds : Bounds
  overlap_top : Nat
  overlap_bottom : Nat
  overlap_left : Nat
  overlap_right : Nat
deriving Repr

/-- The overlap margins `process_in_chunks` attaches to a chunk. -/
def chunk_overlaps (height width : Nat) (b : Bounds) : ChunkInfo :=
  { bounds := b
    overlap_top := if 0 < b.y_start then chunk_overlap else 0
    overlap_bottom := if b.y_end < height then chunk_overlap else 0
    overlap_left := if 0 < b.x_start then chunk_overlap else 0
    overlap_right := if b.x_end < width then chunk_overlap else 0 }

/-- The chunk pixel data `image[y_start:y_end, x_start:x_end]`. -/
def extract_chunk (img : Image) (b : Bounds) : Image :=
  { height := b.y_end - b.y_start
    width := b.x_end - b.x_start
    pix := fun y x => img.pix (b.y_start + y) (b.x_start + x) }

/-- Whether output pixel `(y, x)` lies in the region `merge_chunks` writes
for chunk `c` — the chunk trimmed by its overlap margins. -/
def in_core (c : ChunkInfo) (y x : Nat) : Prop :=
  c.bounds.y_start + c.overlap_top ≤ y ∧ y < c.bounds.y_end - c.overlap_bottom ∧
    c.bounds.x_start + c.overlap_left ≤ x ∧ x < c.bounds.x_end - c.overlap_right

instance (c : ChunkInfo) (y x : Nat) : Decidable (in_core c y x) := by
  unfold in_core; infer_instance

/-- The value `merge_chunks` leaves at output pixel `(y, x)`: the output
starts as `np.zeros(output_shape)` and each chunk in list order overwrites
its trimmed region with its processed data. -/
def merge_pix (l : List (ChunkInfo × Image)) (y x : Nat) : Int :=
  l.foldl
    (fun acc cd =>
      if in_core cd.1 y x then cd.2.pix (y - cd.1.bounds.y_start) (x - cd.1.bounds.x_start)
      else acc)
    0

/-- `MemoryManager.merge_chunks`: merge processed chunks into an image of
the given output shape. -/
def merge_chunks (l : List (ChunkInfo × Image)) (outH outW : Nat) : Image :=
  { height := outH, width := outW, pix := fun y x => merge_pix l y x }

/-- The `(chunk, processed_data)` pairs `process_large_image` hands to
`merge_chunks`: every chunk of the image is run through `f`; if `f`
raises (`none`), the original unprocessed chunk data is substituted
(memory_manager.py lines 320-326). -/
def process_chunked_list (img : Image) (chunkSize : Nat) (f : Image → Option Image) :
    List (ChunkInfo × Image) :=
  (calculate_chunks img.height img.width chunkSize).map fun b =>
    let d := extract_chunk img b
    (chunk_overlaps img.height img.width b, (f d).getD d)

/-- `MemoryManager.process_large_image` with an explicit fit decision
(`can_process_in_memory` reads host memory; its result is passed in) and
an explicit chunk size (the runtime recommended size).  A `none` from `f`
models the processing function raising: in the in-memory branch the
exception propagates, in the chunked branch it is caught per chunk. -/
def process_large_image (canFit : Bool) (img : Image) (chunkSize : Nat)
    (f : Image → Option Image) : Option Image :=
  if canFit then f img
  else some (merge_chunks (process_chunked_list img chunkSize f) img.height img.width)

/-! ## Axis lemmas for `calculate_chunks` -/

theorem ceilDiv_eq_pred_div_add_one {d s : Nat} (hd : 1 ≤ d) (hs : 1 ≤ s) :
    ceilDiv d s = (d - 1) / s + 1 := by
  unfold ceilDiv
  have h1 : d + s - 1 = (d - 1) + s := by omega
  rw [h1, Nat.add_div_right _ hs]

theorem num_axis_chunks_pos (dim stride : Nat) : 1 ≤ num_axis_chunks dim stride := by
  unfold num_axis_chunks; omega

theorem num_axis_chunks_eq {dim stride : Nat} (hd : 1 ≤ dim) (hs : 1 ≤ stride) :
    num_axis_chunks dim stride = (dim - 1) / stride + 1 := by
  unfold num_axis_chunks
  rw [ceilDiv_eq_pred_div_add_one hd hs]
  exact Nat.max_eq_right (Nat.succ_le_succ (Nat.zero_le _))

theorem axis_start_lt_dim {dim stride : Nat} (hd : 1 ≤ dim) (hs : 1 ≤ stride)
    {i : Nat} (hi : i < num_axis_chunks dim stride) :
    axis_start stride i < dim := by
  have hn := num_axis_chunks_eq hd hs
  have hile : i ≤ (dim - 1) / stride := by omega
  have h1 : i * stride ≤ ((dim - 1) / stride) * stride :=
    Nat.mul_le_mul_right stride hile
  have h2 : ((dim - 1) / stride) * stride ≤ dim - 1 := Nat.div_mul_le_self _ _
  have h3 : i * stride ≤ dim - 1 := le_trans h1 h2
  unfold axis_start
  omega

theorem axis_end_le_dim {dim cs stride : Nat} {n i : Nat} :
    axis_end dim cs stride n i ≤ dim := by
  unfold axis_end
  split
  · exact Nat.le_refl dim
  · exact Nat.min_le_right _ _

theorem axis_start_lt_end {dim cs stride : Nat} (hd : 1 ≤ dim) (hs : 1 ≤ stride)
    (hcs : 1 ≤ cs)
    {i : Nat} (hi : i < num_axis_chunks dim stride) :
    axis_start stride i < axis_end dim cs stride (num_axis_chunks dim stride) i := by
  have hlt := axis_start_lt_dim hd hs hi
  unfold axis_end
  split
  · exact hlt
  · exact Nat.lt_min.mpr ⟨by omega, hlt⟩

theorem axis_cover {dim cs stride : Nat} (hs : 1 ≤ stride)
    (hsc : stride ≤ cs) {v : Nat} (hv : v < dim) :
    ∃ i < num_axis_chunks dim stride,
      axis_start stride i ≤ v ∧ v < axis_end dim cs stride (num_axis_chunks dim stride) i := by
  set n := num_axis_chunks dim stride with hn
  have hnpos : 1 ≤ n := num_axis_chunks_pos dim stride
  refine ⟨min (v / stride) (n - 1), by omega, ?_, ?_⟩
  · have h1 : min (v / stride) (n - 1) * stride ≤ (v / stride) * stride :=
      Nat.mul_le_mul_right stride (Nat.min_le_left _ _)
    have h2 : (v / stride) * stride ≤ v := Nat.div_mul_le_self _ _
    unfold axis_start
    omega
  · unfold axis_end
    split
    · exact hv
    · rename_i hne
      have hmin : min (v / stride) (n - 1) = v / stride := by
        rcases Nat.le_total (v / stride) (n - 1) with h | h
        · exact Nat.min_eq_left h
        · exact absurd (Nat.min_eq_right h) hne
      rw [hmin]
      have h1 := Nat.div_add_mod v stride
      have h2 := Nat.mod_lt v (show 0 < stride by omega)
      have h3 : v < stride * (v / stride) + stride := by omega
      have h4 : stride * (v / stride) = (v / stride) * stride := Nat.mul_comm _ _
      unfold axis_start
      refine Nat.lt_min.mpr ⟨by omega, hv⟩

theorem mem_calculate_chunks {h w cs : Nat} {b : Bounds} :
    b ∈ calculate_chunks h w cs ↔
      ∃ yi < num_axis_chunks h (cs - chunk_overlap),
        ∃ xi < num_axis_chunks w (cs - chunk_overlap),
          b = { y_start := axis_start (cs - chunk_overlap) yi
                y_end := axis_end h cs (cs - chunk_overlap)
                  (num_axis_chunks h (cs - chunk_overlap)) yi
                x_start := axis_start (cs - chunk_overlap) xi
                x_end := axis_end w cs (cs - chunk_overlap)
                  (num_axis_chunks w (cs - chunk_overlap)) xi } := by
  simp only [calculate_chunks, List.mem_flatMap, List.mem_map, List.mem_range]
  constructor
  · rintro ⟨yi, hyi, xi, hxi, rfl⟩
    exact ⟨yi, hyi, xi, hxi, rfl⟩
  · rintro ⟨yi, hyi, xi, hxi, rfl⟩
    exact ⟨yi, hyi, xi, hxi, rfl⟩

/-- C9: for any image shape with `height ≥ 1`, `width ≥ 1` and any
`chunk_size` strictly greater than the overlap margin, `calculate_chunks`
returns a non-empty list of bounds in which every tuple satisfies
`0 ≤ y_start < y_end ≤ height` and `0 ≤ x_start < x_end ≤ width`
(the lower bounds `0 ≤ y_start`, `0 ≤ x_start` are automatic for `Nat`),
and every pixel of the image lies inside at least one untrimmed chunk. -/
theorem calculate_chunks_cover (h w cs : Nat)
    (hh : 1 ≤ h) (hw : 1 ≤ w) (hcs : chunk_overlap < cs) :
    calculate_chunks h w cs ≠ [] ∧
    (∀ b ∈ calculate_chunks h w cs,
      b.y_start < b.y_end ∧ b.y_end ≤ h ∧ b.x_start < b.x_end ∧ b.x_end ≤ w) ∧
    (∀ y x, y < h → x < w →
      ∃ b ∈ calculate_chunks h w cs,
        b.y_start ≤ y ∧ y < b.y_end ∧ b.x_start ≤ x ∧ x < b.x_end) := by
  have hs : 1 ≤ cs - chunk_overlap := by omega
  have hsc : cs - chunk_overlap ≤ cs := Nat.sub_le _ _
  have hcs1 : 1 ≤ cs := by omega
  have cover : ∀ y x, y < h → x < w →
      ∃ b ∈ calculate_chunks h w cs,
        b.y_start ≤ y ∧ y < b.y_end ∧ b.x_start ≤ x ∧ x < b.x_end := by
    intro y x hy hx
    obtain ⟨yi, hyi, hy1, hy2⟩ := axis_cover hs hsc hy
    obtain ⟨xi, hxi, hx1, hx2⟩ := axis_cover hs hsc hx
    exact ⟨_, mem_calculate_chunks.mpr ⟨yi, hyi, xi, hxi, rfl⟩, hy1, hy2, hx1, hx2⟩
  have bnds : ∀ b ∈ calculate_chunks h w cs,
      b.y_start < b.y_end ∧ b.y_end ≤ h ∧ b.x_start < b.x_end ∧ b.x_end ≤ w := by
    intro b hb
    rw [mem_calculate_chunks] at hb
    obtain ⟨yi, hyi, xi, hxi, rfl⟩ := hb
    exact ⟨axis_start_lt_end hh hs hcs1 hyi, axis_end_le_dim,
      axis_start_lt_end hw hs hcs1 hxi, axis_end_le_dim⟩
  have nonempty : calculate_chunks h w cs ≠ [] := by
    obtain ⟨b, hb, -⟩ := cover 0 0 (by omega) (by omega)
    exact List.ne_nil_of_mem hb
  exact ⟨nonempty, bnds, cover⟩

/-- Witness for C9 at the concrete shape 3 × 3 with chunk size 129. -/
theorem calculate_chunks_cover_witness :
    (1 ≤ 3 ∧ 1 ≤ 3 ∧ chunk_overlap < 129) ∧
    (calculate_chunks 3 3 129 ≠ [] ∧
    (∀ b ∈ calculate_chunks 3 3 129,
      b.y_start < b.y_end ∧ b.y_end ≤ 3 ∧ b.x_start < b.x_end ∧ b.x_end ≤ 3) ∧
    (∀ y x, y < 3 → x < 3 →
      ∃ b ∈ calculate_chunks 3 3 129,
        b.y_start ≤ y ∧ y < b.y_end ∧ b.x_start ≤ x ∧ x < b.x_end)) :=
  ⟨⟨by decide, by decide, by decide⟩,
    calculate_chunks_cover 3 3 129 (by decide) (by decide) (by decide)⟩

/-! ## Disjointness of trimmed cores

The regions `merge_chunks` writes never overlap: distinct chunks of one
grid have disjoint trimmed cores (they in fact leave gaps, see C1 below).
This is what makes the merged value at a covered pixel well defined. -/

/-- The one-axis component of the region `merge_chunks` writes for the
`i`-th chunk of an axis: the chunk interval trimmed by the overlap
margins of `process_in_chunks` on that axis. -/
def axis_core (dim cs stride n i v : Nat) : Prop :=
  axis_start stride i + (if 0 < axis_start stride i then chunk_overlap else 0) ≤ v ∧
    v < axis_end dim cs stride n i -
      (if axis_end dim cs stride n i < dim then chunk_overlap else 0)

theorem axis_core_disjoint_aux {dim cs n i j v : Nat} (hcs : chunk_overlap < cs)
    (hj : j < n) (hij : i < j)
    (hvi : axis_core dim cs (cs - chunk_overlap) n i v)
    (hvj : axis_core dim cs (cs - chunk_overlap) n j v) : False := by
  set stride := cs - chunk_overlap with hstride
  have h128 : chunk_overlap = 128 := rfl
  have hs1 : 1 ≤ stride := by omega
  have hcseq : cs = stride + chunk_overlap := by omega
  have hine : ¬ i = n - 1 := by omega
  have hstep : i * stride + stride ≤ j * stride := by
    have h1 : (i + 1) * stride ≤ j * stride := Nat.mul_le_mul_right _ hij
    have h2 : (i + 1) * stride = i * stride + stride := Nat.succ_mul i _
    omega
  obtain ⟨hvi1, hvi2⟩ := hvi
  obtain ⟨hvj1, hvj2⟩ := hvj
  have hei : axis_end dim cs stride n i = min (i * stride + cs) dim := by
    unfold axis_end
    rw [if_neg hine]
    unfold axis_start
    rfl
  have hei_le : axis_end dim cs stride n i ≤ i * stride + cs := by
    rw [hei]; exact Nat.min_le_left _ _
  have hei_dim : axis_end dim cs stride n i ≤ dim := axis_end_le_dim
  have hj1 : j * stride ≤ v := by
    have h : axis_start stride j ≤ v := le_trans (Nat.le_add_right _ _) hvj1
    unfold axis_start at h
    exact h
  by_cases hlt : axis_end dim cs stride n i < dim
  · rw [if_pos hlt] at hvi2
    unfold chunk_overlap at hvi2 hcseq
    omega
  · rw [if_neg hlt] at hvi2
    have hdim_le : dim ≤ i * stride + cs := by
      rcases Nat.le_total (i * stride + cs) dim with h | h
      · have : axis_end dim cs stride n i = i * stride + cs := by
          rw [hei]; exact Nat.min_eq_left h
        omega
      · exact h
    have hjpos : 0 < axis_start stride j := by
      unfold axis_start
      exact Nat.mul_pos (by omega) (by omega)
    rw [if_pos hjpos] at hvj1
    have hj1' : j * stride + chunk_overlap ≤ v := by
      have : axis_start stride j + chunk_overlap ≤ v := hvj1
      unfold axis_start at this
      exact this
    omega

theorem axis_core_disjoint {dim cs n i j v : Nat} (hcs : chunk_overlap < cs)
    (hi : i < n) (hj : j < n)
    (hvi : axis_core dim cs (cs - chunk_overlap) n i v)
    (hvj : axis_core dim cs (cs - chunk_overlap) n j v) : i = j := by
  rcases Nat.lt_trichotomy i j with hlt | heq | hgt
  · exact absurd (axis_core_disjoint_aux hcs hj hlt hvi hvj) not_false
  · exact heq
  · exact absurd (axis_core_disjoint_aux hcs hi hgt hvj hvi) not_false

theorem in_core_iff_axis {h w cs yi xi y x : Nat} :
    in_core (chunk_overlaps h w
      { y_start := axis_start (cs - chunk_overlap) yi
        y_end := axis_end h cs (cs - chunk_overlap) (num_axis_chunks h (cs - chunk_overlap)) yi
        x_start := axis_start (cs - chunk_overlap) xi
        x_end := axis_end w cs (cs - chunk_overlap) (num_axis_chunks w (cs - chunk_overlap)) xi })
      y x ↔
    axis_core h cs (cs - chunk_overlap) (num_axis_chunks h (cs - chunk_overlap)) yi y ∧
      axis_core w cs (cs - chunk_overlap) (num_axis_chunks w (cs - chunk_overlap)) xi x := by
  simp only [in_core, chunk_overlaps, axis_core]
  exact ⟨fun ⟨h1, h2, h3, h4⟩ => ⟨⟨h1, h2⟩, h3, h4⟩, fun ⟨⟨h1, h2⟩, h3, h4⟩ => ⟨h1, h2, h3, h4⟩⟩

/-- Two chunks of the same grid whose trimmed cores share the pixel
`(y, x)` are the same chunk. -/
theorem calculate_chunks_core_unique {h w cs : Nat} (hcs : chunk_overlap < cs)
    {b b' : Bounds} (hb : b ∈ calculate_chunks h w cs) (hb' : b' ∈ calculate_chunks h w cs)
    {y x : Nat} (hc : in_core (chunk_overlaps h w b) y x)
    (hc' : in_core (chunk_overlaps h w b') y x) : b' = b := by
  rw [mem_calculate_chunks] at hb hb'
  obtain ⟨yi, hyi, xi, hxi, rfl⟩ := hb
  obtain ⟨yi', hyi', xi', hxi', rfl⟩ := hb'
  obtain ⟨hcy, hcx⟩ := in_core_iff_axis.mp hc
  obtain ⟨hcy', hcx'⟩ := in_core_iff_axis.mp hc'
  have hy : yi' = yi := axis_core_disjoint hcs hyi' hyi hcy' hcy
  have hx : xi' = xi := axis_core_disjoint hcs hxi' hxi hcx' hcx
  rw [hy, hx]

/-! ## Value of a merged pixel -/

theorem merge_foldl_of_not_covered {l : List (ChunkInfo × Image)} {y x : Nat}
    (h : ∀ cd ∈ l, ¬ in_core cd.1 y x) (acc : Int) :
    l.foldl
      (fun acc cd =>
        if in_core cd.1 y x then cd.2.pix (y - cd.1.bounds.y_start) (x - cd.1.bounds.x_start)
        else acc)
      acc = acc := by
  induction l generalizing acc with
  | nil => rfl
  | cons hd t ih =>
    have hhd : ¬ in_core hd.1 y x := h hd (List.mem_cons_self _ _)
    simp only [List.foldl_cons, if_neg hhd]
    exact ih (fun cd hcd => h cd (List.mem_cons_of_mem _ hcd)) acc

theorem merge_foldl_of_covered {l : List (ChunkInfo × Image)} {y x : Nat} {v : Int}
    (hval : ∀ cd ∈ l, in_core cd.1 y x →
      cd.2.pix (y - cd.1.bounds.y_start) (x - cd.1.bounds.x_start) = v)
    (hcov : ∃ cd ∈ l, in_core cd.1 y x) (acc : Int) :
    l.foldl
      (fun acc cd =>
        if in_core cd.1 y x then cd.2.pix (y - cd.1.bounds.y_start) (x - cd.1.bounds.x_start)
        else acc)
      acc = v := by
  induction l generalizing acc with
  | nil => exact absurd hcov (by simp)
  | cons hd t ih =>
    by_cases hhd : in_core hd.1 y x
    · simp only [List.foldl_cons, if_pos hhd]
      have hv := hval hd (List.mem_cons_self _ _) hhd
      by_cases ht : ∃ cd ∈ t, in_core cd.1 y x
      · exact ih (fun cd hcd => hval cd (List.mem_cons_of_mem _ hcd)) ht _
      · rw [merge_foldl_of_not_covered (fun cd hcd hc => ht ⟨cd, hcd, hc⟩) _]
        exact hv
    · simp only [List.foldl_cons, if_neg hhd]
      obtain ⟨cd, hcd, hc⟩ := hcov
      rcases List.mem_cons.mp hcd with rfl | hmem
      · exact absurd hc hhd
      · exact ih (fun cd hcd => hval cd (List.mem_cons_of_mem _ hcd)) ⟨cd, hmem, hc⟩ acc

/-- The merged pixel value inside the trimmed core of chunk `b` is the
pixel the corresponding processed (or substituted) data holds there. -/
theorem merge_pix_of_core {img : Image} {cs : Nat} {f : Image → Option Image}
    (hcs : chunk_overlap < cs) {b : Bounds}
    (hb : b ∈ calculate_chunks img.height img.width cs) {y x : Nat}
    (hc : in_core (chunk_overlaps img.height img.width b) y x) :
    merge_pix (process_chunked_list img cs f) y x =
      ((f (extract_chunk img b)).getD (extract_chunk img b)).pix
        (y - b.y_start) (x - b.x_start) := by
  unfold merge_pix
  refine merge_foldl_of_covered ?_ ?_ 0
  · intro cd hcd hcdc
    unfold process_chunked_list at hcd
    rw [List.mem_map] at hcd
    obtain ⟨b', hb', rfl⟩ := hcd
    have : b' = b := calculate_chunks_core_unique hcs hb hb' hc hcdc
    subst this
    rfl
  · refine ⟨(chunk_overlaps img.height img.width b,
      (f (extract_chunk img b)).getD (extract_chunk img b)), ?_, hc⟩
    unfold process_chunked_list
    rw [List.mem_map]
    exact ⟨b, hb, rfl⟩

/-- C8: in the chunked path of `process_large_image`, a chunk on which the
processing function raises does not abort the run: the merged result is
still returned with the full input shape, the failing chunk's core holds
the original unprocessed pixels, and every chunk on which the function
succeeds contributes its processed pixels. -/
theorem process_large_image_chunk_error_recovery (img : Image) (cs : Nat)
    (f : Image → Option Image) (hcs : chunk_overlap < cs)
    (hshape : ∀ d g, f d = some g → g.height = d.height ∧ g.width = d.width) :
    ∃ out, process_large_image false img cs f = some out ∧
      out.height = img.height ∧ out.width = img.width ∧
      (∀ b ∈ calculate_chunks img.height img.width cs,
        f (extract_chunk img b) = none →
        ∀ y x, in_core (chunk_overlaps img.height img.width b) y x →
          out.pix y x = img.pix y x) ∧
      (∀ b ∈ calculate_chunks img.height img.width cs, ∀ g,
        f (extract_chunk img b) = some g →
        ∀ y x, in_core (chunk_overlaps img.height img.width b) y x →
          out.pix y x = g.pix (y - b.y_start) (x - b.x_start)) := by
  refine ⟨merge_chunks (process_chunked_list img cs f) img.height img.width, rfl, rfl, rfl,
    ?_, ?_⟩
  · intro b hb hfail y x hc
    obtain ⟨hc1, hc2, hc3, hc4⟩ := hc
    have hys : b.y_start ≤ y :=
      le_trans (Nat.le_add_right _ _) hc1
    have hxs : b.x_start ≤ x :=
      le_trans (Nat.le_add_right _ _) hc3
    show merge_pix (process_chunked_list img cs f) y x = img.pix y x
    rw [merge_pix_of_core hcs hb ⟨hc1, hc2, hc3, hc4⟩, hfail]
    show (extract_chunk img b).pix (y - b.y_start) (x - b.x_start) = img.pix y x
    unfold extract_chunk
    simp only
    rw [Nat.add_sub_cancel' hys, Nat.add_sub_cancel' hxs]
  · intro b hb g hg y x hc
    show merge_pix (process_chunked_list img cs f) y x = g.pix (y - b.y_start) (x - b.x_start)
    rw [merge_pix_of_core hcs hb hc, hg]
    rfl

/-- Witness for C8: a processing function that raises on every chunk, on
a 300 × 300 image that does not fit in memory. -/
def demo_image_300 : Image := { height := 300, width := 300, pix := fun _ _ => 7 }

/-- Witness for C8, instantiating the theorem with chunk size 2048 and a
chunk function that always raises. -/
theorem process_large_image_chunk_error_recovery_witness :
    chunk_overlap < 2048 ∧
    (∃ out, process_large_image false demo_image_300 2048 (fun _ => none) = some out ∧
      out.height = demo_image_300.height ∧ out.width = demo_image_300.width ∧
      (∀ b ∈ calculate_chunks demo_image_300.height demo_image_300.width 2048,
        (fun (_ : Image) => (none : Option Image)) (extract_chunk demo_image_300 b) = none →
        ∀ y x, in_core (chunk_overlaps demo_image_300.height demo_image_300.width b) y x →
          out.pix y x = demo_image_300.pix y x) ∧
      (∀ b ∈ calculate_chunks demo_image_300.height demo_image_300.width 2048, ∀ g,
        (fun (_ : Image) => (none : Option Image)) (extract_chunk demo_image_300 b) = some g →
        ∀ y x, in_core (chunk_overlaps demo_image_300.height demo_image_300.width b) y x →
          out.pix y x = g.pix (y - b.y_start) (x - b.x_start))) :=
  ⟨by decide,
    process_large_image_chunk_error_recovery demo_image_300 2048 (fun _ => none)
      (by decide) (fun d g h => nomatch h)⟩

/-! ## C1: the trimmed cores do not tile the image

For the 5000 × 3000 image with chunk size 2048 and overlap 128, the chunk
that starts at row 0 is trimmed to rows `[0, 1920)` and the chunk that
starts at row 1920 is trimmed to rows `[2048, 3840)`: the 128-row band
`[1920, 2048)` is written by no chunk and keeps the zero fill of
`merge_chunks`' output buffer, so identity processing does not reproduce
the input. -/

/-- A concrete 5000 × 3000 image whose pixels are all `1`. -/
def demo_image_5000_3000 : Image :=
  { height := 5000, width := 3000, pix := fun _ _ => 1 }

/-- C1 (refuting evidence): on a 5000 × 3000 all-ones image that does not
fit in memory, `process_large_image` with the identity processing
function returns an image of the input shape whose pixel `(1920, 0)` is
`0`, while the input pixel there is `1` — the trimmed cores leave the
overlap bands uncovered, so the output is not identical to the input. -/
theorem process_large_image_identity_gap :
    (process_large_image false demo_image_5000_3000 2048 some).map
        (fun m => (m.height, m.width)) = some (5000, 3000) ∧
    (process_large_image false demo_image_5000_3000 2048 some).map
        (fun m => m.pix 1920 0) = some 0 ∧
    demo_image_5000_3000.pix 1920 0 = 1 := by
  refine ⟨rfl, ?_, rfl⟩
  decide

/-! ## ProcessingQueue

Embedding of `pipeline/processing_queue.py`.  Jobs are `QueueItem`s; the
`PriorityQueue` holds `(priority.value, item)` pairs and always hands out
a smallest pair under the tuple order (first component, then
`QueueItem.__lt__`).  Timestamps are modelled as naturals, `progress` as
a rational. -/

/-- `ProcessingStatus` (processing_queue.py lines 16-22). -/
inductive ProcessingStatus
  | pending
  | processing
  | completed
  | failed
  | cancelled
deriving DecidableEq, Repr

/-- `Priority` (lines 25-30). -/
inductive Priority
  | critical
  | high
  | medium
  | low
deriving DecidableEq, Repr

/-- The numeric enum value: `LOW = 3, MEDIUM = 2, HIGH = 1, CRITICAL = 0`. -/
def Priority.value : Priority → Nat
  | .critical => 0
  | .high => 1
  | .medium => 2
  | .low => 3

/-- `QueueItem` (lines 33-48), restricted to the fields the queue logic
reads or writes; paths, session id, metadata and pipeline config are
opaque payload and are dropped. -/
structure QueueItem where
  id : String
  priority : Priority
  status : ProcessingStatus
  created_at : Nat
  started_at : Option Nat
  completed_at : Option Nat
  error : Option String
  progress : Rat
deriving DecidableEq, Repr

/-- `QueueItem.__lt__` (lines 50-54): priority value first, creation time
to break ties. -/
def item_ltb (a b : QueueItem) : Bool :=
  if a.priority.value ≠ b.priority.value then decide (a.priority.value < b.priority.value)
  else decide (a.created_at < b.created_at)

/-- Comparison of the `(priority.value, item)` pairs stored in the
`PriorityQueue`: Python tuple comparison — first components, and
`QueueItem.__lt__` when they are equal. -/
def entry_ltb (a b : Nat × QueueItem) : Bool :=
  if a.1 = b.1 then item_ltb a.2 b.2 else decide (a.1 < b.1)

/-- The strict order the specification claims for dequeueing: priority
class first (smaller enum value first), then creation timestamp
ascending. -/
def job_before (a b : QueueItem) : Prop :=
  a.priority.value < b.priority.value ∨
    (a.priority.value = b.priority.value ∧ a.created_at < b.created_at)

/-! ### A heap pop hands out a minimal element

`queue.get` on a `PriorityQueue` returns a smallest entry.  We realise
the selection as a fold keeping the leftmost minimal entry; the lemmas
below only use that the comparison is a strict order, so they hold for
any tie-breaking a binary heap could make. -/

theorem foldl_min_below {α : Type} (r : α → α → Bool)
    (htrans : ∀ a b c, r a b = true → r b c = true → r a c = true)
    (e : α) (t : List α) :
    t.foldl (fun m x => if r x m then x else m) e = e ∨
      r (t.foldl (fun m x => if r x m then x else m) e) e = true := by
  induction t generalizing e with
  | nil => exact Or.inl rfl
  | cons x t ih =>
    simp only [List.foldl_cons]
    by_cases hx : r x e = true
    · rw [if_pos hx]
      rcases ih x with h | h
      · exact Or.inr (by rw [h]; exact hx)
      · exact Or.inr (htrans _ _ _ h hx)
    · rw [if_neg hx]
      exact ih e

theorem foldl_min_mem {α : Type} (r : α → α → Bool) (e : α) (t : List α) :
    t.foldl (fun m x => if r x m then x else m) e ∈ e :: t := by
  induction t generalizing e with
  | nil => exact List.mem_cons_self _ _
  | cons x t ih =>
    simp only [List.foldl_cons]
    by_cases hx : r x e = true
    · rw [if_pos hx]
      rcases List.mem_cons.mp (ih x) with h | h
      · rw [h]
        exact List.mem_cons_of_mem _ (List.mem_cons_self _ _)
      · exact List.mem_cons_of_mem _ (List.mem_cons_of_mem _ h)
    · rw [if_neg hx]
      rcases List.mem_cons.mp (ih e) with h | h
      · rw [h]
        exact List.mem_cons_self _ _
      · exact List.mem_cons_of_mem _ (List.mem_cons_of_mem _ h)

theorem foldl_min_is_min {α : Type} (r : α → α → Bool)
    (htrans : ∀ a b c, r a b = true → r b c = true → r a c = true)
    (hirr : ∀ a, r a a = false)
    (e : α) (t : List α) :
    ∀ z ∈ e :: t, ¬ r z (t.foldl (fun m x => if r x m then x else m) e) = true := by
  have hasym : ∀ a b, r a b = true → r b a = true → False := by
    intro a b h1 h2
    have := htrans _ _ _ h1 h2
    rw [hirr a] at this
    exact Bool.false_ne_true this
  induction t generalizing e with
  | nil =>
    intro z hz
    rcases List.mem_cons.mp hz with rfl | h
    · simp [hirr]
    · exact absurd h (List.not_mem_nil _)
  | cons x t ih =>
    intro z hz
    simp only [List.foldl_cons]
    by_cases hx : r x e = true
    · rw [if_pos hx]
      rcases List.mem_cons.mp hz with rfl | hz'
      · -- z = e, the discarded element
        intro hcon
        have hne : ¬ r z x = true := fun h => hasym _ _ h hx
        rcases foldl_min_below r htrans x t with heq | hlt
        · exact hne (heq ▸ hcon)
        · exact hne (htrans _ _ _ hcon hlt)
      · exact ih x z hz'
    · rw [if_neg hx]
      rcases List.mem_cons.mp hz with rfl | hz'
      · exact ih _ z (List.mem_cons_self _ _)
      · rcases List.mem_cons.mp hz' with rfl | hz''
        · -- z = x, the discarded element
          intro hcon
          rcases foldl_min_below r htrans e t with heq | hlt
          · exact hx (heq ▸ hcon)
          · exact hx (htrans _ _ _ hcon hlt)
        · exact ih e z (List.mem_cons_of_mem _ hz'')

/-- Selection of the entry `queue.get` hands out: a smallest entry of the
queued list (the leftmost one among equals). -/
def min_entry : List (Nat × QueueItem) → Option (Nat × QueueItem)
  | [] => none
  | e :: t => some (t.foldl (fun m x => if entry_ltb x m then x else m) e)

/-- One `queue.get`: the popped minimal entry and the remaining queue. -/
def dequeue (l : List (Nat × QueueItem)) :
    Option ((Nat × QueueItem) × List (Nat × QueueItem)) :=
  match min_entry l with
  | none => none
  | some m => some (m, l.erase m)

/-- Repeatedly dequeue, returning the job ids in dequeue order. -/
def drain : Nat → List (Nat × QueueItem) → List String
  | 0, _ => []
  | fuel + 1, l =>
    match dequeue l with
    | none => []
    | some (e, t) => e.2.id :: drain fuel t

theorem entry_ltb_trans : ∀ a b c, entry_ltb a b = true → entry_ltb b c = true →
    entry_ltb a c = true := by
  intro a b c hab hbc
  unfold entry_ltb item_ltb at hab hbc ⊢
  split_ifs at hab hbc ⊢ <;> simp_all <;> omega

theorem entry_ltb_irrefl : ∀ a, entry_ltb a a = false := by
  intro a
  unfold entry_ltb item_ltb
  split_ifs <;> simp_all

/-! ### Queue state and its operations

The mutable state of a `ProcessingQueue`: the pending priority queue and
the active/completed/failed job tables (insertion-ordered dicts, modelled
as association lists).  The worker body `_process_item` is split into its
atomic state transitions (start, then complete or fail). -/

structure QueueState where
  queue : List (Nat × QueueItem)
  active : List (String × QueueItem)
  completed : List (String × QueueItem)
  failed : List (String × QueueItem)
  max_queue_size : Nat
deriving Repr

/-- `ProcessingQueue.add_item` (lines 120-136): `put_nowait` fails (and
the method returns `False`) exactly when the bounded queue is full; a
`maxsize` of `0` means unbounded. -/
def add_item (s : QueueState) (item : QueueItem) : Bool × QueueState :=
  if 0 < s.max_queue_size ∧ s.max_queue_size ≤ s.queue.length then (false, s)
  else (true, { s with queue := s.queue ++ [(item.priority.value, item)] })

/-- The in-place reset `retry_failed` performs on a failed item
(lines 365-371). -/
def retry_reset (it : QueueItem) : QueueItem :=
  { it with
    status := .pending
    error := none
    progress := 0
    started_at := none
    completed_at := none }

/-- The loop body of `retry_failed` (lines 364-376): walk the failed
table in order; each item is reset, then `add_item` is attempted — on
success the id is collected and the entry leaves the failed table, on
failure (full queue) the already-reset item stays in the failed table. -/
def retry_go (maxSize : Nat) (q : List (Nat × QueueItem)) :
    List (String × QueueItem) →
      List String × List (Nat × QueueItem) × List (String × QueueItem)
  | [] => ([], q, [])
  | e :: t =>
    let it := retry_reset e.2
    if 0 < maxSize ∧ maxSize ≤ q.length then
      let r := retry_go maxSize q t
      (r.1, r.2.1, (e.1, it) :: r.2.2)
    else
      let r := retry_go maxSize (q ++ [(it.priority.value, it)]) t
      (e.1 :: r.1, r.2.1, r.2.2)

/-- `ProcessingQueue.retry_failed` (lines 360-379). -/
def retry_failed (s : QueueState) : List String × QueueState :=
  let r := retry_go s.max_queue_size s.queue s.failed
  (r.1, { s with queue := r.2.1, failed := r.2.2 })

/-- `ProcessingQueue.cancel_item` (lines 168-201): an actively processing
job is flagged `CANCELLED` in place; otherwise the matching pending entry
is marked cancelled and not put back into the queue. -/
def cancel_item (s : QueueState) (id : String) : QueueState :=
  if (s.active.find? (fun e => e.1 = id)).isSome then
    { s with
      active := s.active.map fun e =>
        if e.1 = id then (e.1, { e.2 with status := .cancelled }) else e }
  else
    { s with queue := s.queue.filter (fun e => e.2.id ≠ id) }

/-- The start of `_process_item` for the next dequeued entry
(lines 280-304): pop the minimal entry, skip it if already cancelled,
otherwise mark it `PROCESSING` with a start timestamp and track it as
active. -/
def worker_start (s : QueueState) (now : Nat) : QueueState :=
  match dequeue s.queue with
  | none => s
  | some (e, rest) =>
    if e.2.status = .cancelled then { s with queue := rest }
    else
      { s with
        queue := rest
        active := s.active ++
          [(e.2.id, { e.2 with status := .processing, started_at := some now })] }

/-- The successful end of `_process_item` (lines 323-331). -/
def worker_complete (s : QueueState) (id : String) (now : Nat) : QueueState :=
  match s.active.find? (fun e => e.1 = id) with
  | none => s
  | some e =>
    { s with
      active := s.active.filter (fun e' => e'.1 ≠ id)
      completed := s.completed ++
        [(id, { e.2 with
          status := .completed
          completed_at := some now
          progress := 1 })] }

/-- The failing end of `_process_item` (lines 337-346). -/
def worker_fail (s : QueueState) (id err : String) (now : Nat) : QueueState :=
  match s.active.find? (fun e => e.1 = id) with
  | none => s
  | some e =>
    { s with
      active := s.active.filter (fun e' => e'.1 ≠ id)
      failed := s.failed ++
        [(id, { e.2 with
          status := .failed
          error := some err
          completed_at := some now })] }

/-- `ProcessingQueue.clear_completed` (lines 354-358). -/
def clear_completed (s : QueueState) : QueueState :=
  { s with completed := [], failed := [] }

/-- The queue's state-changing operations. -/
inductive QOp
  | add (item : QueueItem)
  | cancel (id : String)
  | start (now : Nat)
  | complete (id : String) (now : Nat)
  | fail (id err : String) (now : Nat)
  | clear
  | retry

def apply_queue_op : QOp → QueueState → QueueState
  | .add item, s => (add_item s item).2
  | .cancel id, s => cancel_item s id
  | .start now, s => worker_start s now
  | .complete id now, s => worker_complete s id now
  | .fail id err now, s => worker_fail s id err now
  | .clear, s => clear_completed s
  | .retry, s => (retry_failed s).2

/-! ### C5: dequeue order -/

/-- A fresh job as `add_batch` creates it (pending, zero progress). -/
def demo_job (id : String) (p : Priority) (created : Nat) : QueueItem :=
  { id := id
    priority := p
    status := .pending
    created_at := created
    started_at := none
    completed_at := none
    error := none
    progress := 0 }

/-- The empty queue state of a fresh `ProcessingQueue`. -/
def empty_queue_state (maxSize : Nat) : QueueState :=
  { queue := [], active := [], completed := [], failed := [], max_queue_size := maxSize }

/-- The queue after submitting jobs with priorities LOW, HIGH, MEDIUM,
HIGH in that order (creation timestamps 0, 1, 2, 3). -/
def demo_lhmh_state : QueueState :=
  apply_queue_op (.add (demo_job "high2" .high 3))
    (apply_queue_op (.add (demo_job "medium" .medium 2))
      (apply_queue_op (.add (demo_job "high1" .high 1))
        (apply_queue_op (.add (demo_job "low" .low 0)) (empty_queue_state 1000))))

theorem entry_ltb_of_job_before {a b : Nat × QueueItem}
    (ha : a.1 = a.2.priority.value) (hb : b.1 = b.2.priority.value)
    (h : job_before a.2 b.2) : entry_ltb a b = true := by
  unfold job_before at h
  unfold entry_ltb item_ltb
  rcases h with h | ⟨h1, h2⟩
  · rw [if_neg (by omega), decide_eq_true_eq]
    omega
  · rw [if_pos (by omega), if_neg (by omega), decide_eq_true_eq]
    exact h2

/-- C5: the dequeued entry of any well-formed nonempty queue (every
stored pair carries its item's priority value) is minimal under the
order "priority class first, then creation timestamp ascending"; and the
submission order LOW, HIGH, MEDIUM, HIGH is dequeued as
HIGH₁, HIGH₂, MEDIUM, LOW. -/
theorem dequeue_minimal_and_lhmh_order (l : List (Nat × QueueItem))
    (hwf : ∀ e ∈ l, e.1 = e.2.priority.value) (hne : l ≠ []) :
    (∃ e t, dequeue l = some (e, t) ∧ e ∈ l ∧
      ∀ e' ∈ l, ¬ job_before e'.2 e.2) ∧
    drain 4 demo_lhmh_state.queue = ["high1", "high2", "medium", "low"] := by
  constructor
  · match l, hne with
    | e :: t, _ =>
      refine ⟨t.foldl (fun m x => if entry_ltb x m then x else m) e, _, rfl, ?_, ?_⟩
      · exact foldl_min_mem entry_ltb e t
      · intro e' he' hjb
        have hmem := foldl_min_mem entry_ltb e t
        have hlt : entry_ltb e'
            (t.foldl (fun m x => if entry_ltb x m then x else m) e) = true :=
          entry_ltb_of_job_before (hwf e' he') (hwf _ hmem) hjb
        exact foldl_min_is_min entry_ltb entry_ltb_trans entry_ltb_irrefl e t e' he' hlt
  · decide

/-- Witness for C5 on the concrete LOW, HIGH, MEDIUM, HIGH queue. -/
theorem dequeue_minimal_and_lhmh_order_witness :
    (∀ e ∈ demo_lhmh_state.queue, e.1 = e.2.priority.value) ∧
    demo_lhmh_state.queue ≠ [] ∧
    ((∃ e t, dequeue demo_lhmh_state.queue = some (e, t) ∧ e ∈ demo_lhmh_state.queue ∧
      ∀ e' ∈ demo_lhmh_state.queue, ¬ job_before e'.2 e.2) ∧
    drain 4 demo_lhmh_state.queue = ["high1", "high2", "medium", "low"]) :=
  ⟨by decide, by decide,
    dequeue_minimal_and_lhmh_order demo_lhmh_state.queue (by decide) (by decide)⟩

/-! ### C7: retry of failed jobs -/

theorem retry_go_all_fit (maxSize : Nat) (fl : List (String × QueueItem)) :
    ∀ q : List (Nat × QueueItem),
    (maxSize = 0 ∨ q.length + fl.length ≤ maxSize) →
    retry_go maxSize q fl =
      (fl.map Prod.fst,
       q ++ fl.map (fun e => ((retry_reset e.2).priority.value, retry_reset e.2)),
       []) := by
  induction fl with
  | nil => intro q _; simp [retry_go]
  | cons e t ih =>
    intro q hcap
    have hlen : (e :: t).length = t.length + 1 := List.length_cons _ _
    have hnotfull : ¬ (0 < maxSize ∧ maxSize ≤ q.length) := by
      rcases hcap with h | h
      · omega
      · rw [hlen] at h; omega
    unfold retry_go
    rw [if_neg hnotfull]
    rw [ih (q ++ [((retry_reset e.2).priority.value, retry_reset e.2)]) ?_]
    · simp
    · rcases hcap with h | h
      · exact Or.inl h
      · right
        rw [hlen] at h
        simp only [List.length_append, List.length_cons, List.length_nil]
        omega

/-- A failed job used for the C7 statements. -/
def demo_failed_job : QueueItem :=
  { id := "job1"
    priority := .medium
    status := .failed
    created_at := 1
    started_at := some 5
    completed_at := some 6
    error := some "boom"
    progress := (1 : Rat) / 2 }

/-- A queue state whose bounded queue is already full (capacity 1, one
pending filler entry) and which holds one failed job. -/
def demo_full_queue_state : QueueState :=
  { queue := [(2, demo_job "filler" .medium 0)]
    active := []
    completed := []
    failed := [("job1", demo_failed_job)]
    max_queue_size := 1 }

/-- C7 (refuting evidence): with the bounded queue full, `retry_failed`
retries nothing — the failed job is not re-enqueued (the queue is
unchanged and no id is returned), so it is not dequeue-eligible; it stays
in the failed table, already mutated to PENDING by the in-place reset. -/
theorem retry_failed_full_queue_counterexample :
    (retry_failed demo_full_queue_state).1 = [] ∧
    (retry_failed demo_full_queue_state).2.queue = demo_full_queue_state.queue ∧
    (retry_failed demo_full_queue_state).2.failed.map Prod.fst = ["job1"] ∧
    ∀ e ∈ (retry_failed demo_full_queue_state).2.failed, e.2.status = .pending := by
  decide

/-- C7 (amended): `retry_failed` resets every failed job to PENDING with
progress 0, error and both timestamps cleared; when the bounded queue
has room for them, all failed jobs are re-enqueued (appended to the
pending queue, hence dequeue-eligible), their ids are returned, and the
failed table empties; and no queue operation other than retry changes a
failed job's entry — the others leave it in the failed table untouched,
except `clear_completed`, which deletes the record outright. -/
theorem retry_failed_resets_and_requeues (s : QueueState) :
    ((s.max_queue_size = 0 ∨ s.queue.length + s.failed.length ≤ s.max_queue_size) →
      (retry_failed s).2.failed = [] ∧
      (retry_failed s).1 = s.failed.map Prod.fst ∧
      (retry_failed s).2.queue = s.queue ++ s.failed.map
        (fun e => ((retry_reset e.2).priority.value, retry_reset e.2))) ∧
    (∀ e ∈ s.failed, (retry_reset e.2).status = .pending ∧
      (retry_reset e.2).progress = 0 ∧ (retry_reset e.2).error = none ∧
      (retry_reset e.2).started_at = none ∧ (retry_reset e.2).completed_at = none) ∧
    (∀ op, op ≠ QOp.retry →
      ∀ e ∈ s.failed, e ∈ (apply_queue_op op s).failed ∨ op = QOp.clear) := by
  refine ⟨?_, ?_, ?_⟩
  · intro hcap
    unfold retry_failed
    rw [retry_go_all_fit s.max_queue_size s.failed s.queue hcap]
    exact ⟨rfl, rfl, rfl⟩
  · intro e _
    exact ⟨rfl, rfl, rfl, rfl, rfl⟩
  · intro op hop e he
    cases op with
    | add item =>
      left
      show e ∈ (add_item s item).2.failed
      unfold add_item
      split_ifs <;> exact he
    | cancel id =>
      left
      show e ∈ (cancel_item s id).failed
      unfold cancel_item
      split_ifs <;> exact he
    | start now =>
      left
      show e ∈ (worker_start s now).failed
      unfold worker_start
      rcases hdq : dequeue s.queue with - | ⟨⟨e', rest⟩⟩
      · exact he
      · simp only
        split_ifs <;> exact he
    | complete id now =>
      left
      show e ∈ (worker_complete s id now).failed
      unfold worker_complete
      rcases hf : s.active.find? (fun e => e.1 = id) with - | e'
      · rw [hf]
        exact he
      · rw [hf]
        exact he
    | fail id err now =>
      left
      show e ∈ (worker_fail s id err now).failed
      unfold worker_fail
      rcases hf : s.active.find? (fun e => e.1 = id) with - | e'
      · rw [hf]
        exact he
      · rw [hf]
        exact List.mem_append_left _ he
    | clear => exact Or.inr rfl
    | retry => exact absurd rfl hop

/-- A queue state with spare capacity and one failed job, used to witness
the amended C7 statement. -/
def demo_capacity_state : QueueState :=
  { queue := [(2, demo_job "filler" .medium 0)]
    active := []
    completed := []
    failed := [("job1", demo_failed_job)]
    max_queue_size := 10 }

/-- Witness for the amended C7 on a state with spare queue capacity. -/
theorem retry_failed_resets_and_requeues_witness :
    (demo_capacity_state.max_queue_size = 0 ∨
      demo_capacity_state.queue.length + demo_capacity_state.failed.length ≤
        demo_capacity_state.max_queue_size) ∧
    ((retry_failed demo_capacity_state).2.failed = [] ∧
      (retry_failed demo_capacity_state).1 = demo_capacity_state.failed.map Prod.fst ∧
      (retry_failed demo_capacity_state).2.queue = demo_capacity_state.queue ++
        demo_capacity_state.failed.map
          (fun e => ((retry_reset e.2).priority.value, retry_reset e.2))) :=
  ⟨by decide, (retry_failed_resets_and_requeues demo_capacity_state).1 (by decide)⟩

/-! ## PipelineManager

Embedding of `pipeline/pipeline_manager.py`.  The node table
(`self.nodes`) is an insertion-ordered dict, modelled as an association
list whose key order follows Python dict semantics (assigning to an
existing key keeps its position, a new key is appended).  The `networkx`
digraph is modelled by its edge set (its node set always equals the node
table's keys: `add_node`, `remove_node` and `load_pipeline` keep the two
in sync).  Parameter maps hold scalar JSON values, modelled as `Int`. -/

/-- A parameter dict. -/
abbrev ParamMap := List (String × Int)

/-- Python `d[k] = v`: overwrite in place, else append. -/
def dict_set (d : ParamMap) (k : String) (v : Int) : ParamMap :=
  if d.any (fun e => e.1 = k) then d.map (fun e => if e.1 = k then (k, v) else e)
  else d ++ [(k, v)]

/-- Python `d.update(upd)`, the body of `set_parameters`. -/
def dict_update (d upd : ParamMap) : ParamMap :=
  upd.foldl (fun acc e => dict_set acc e.1 e.2) d

/-- A `BaseProcessor` instance as the pipeline manager sees it: its type
tag, display name, and parameter dict. -/
structure Processor where
  processor_type : String
  name : String
  parameters : ParamMap
deriving DecidableEq, Repr

/-- `ProcessingNode` (pipeline_manager.py lines 19-36), without the
cosmetic `position` field (non-semantic, excluded by every claim). -/
structure ProcessingNode where
  id : String
  processor : Processor
  inputs : List String
  outputs : List String
  parameters : ParamMap
  enabled : Bool
deriving DecidableEq, Repr

/-- The mutable state of a `PipelineManager`: node table, graph edges and
the processor registry (type tag to the parameter defaults the registered
class constructor installs). -/
structure Pipeline where
  nodes : List (String × ProcessingNode)
  edges : List (String × String)
  registry : List (String × ParamMap)
deriving DecidableEq, Repr

/-- `id in self.nodes`. -/
def has_node (p : Pipeline) (id : String) : Bool :=
  p.nodes.any (fun e => e.1 = id)

/-- Python `self.nodes[node.id] = node`. -/
def nodes_set (ns : List (String × ProcessingNode)) (n : ProcessingNode) :
    List (String × ProcessingNode) :=
  if ns.any (fun e => e.1 = n.id) then ns.map (fun e => if e.1 = n.id then (n.id, n) else e)
  else ns ++ [(n.id, n)]

/-- `networkx` `add_edge` on a digraph: a set insertion. -/
def edge_add (es : List (String × String)) (e : String × String) : List (String × String) :=
  if e ∈ es then es else es ++ [e]

/-- `PipelineManager.add_node` (lines 71-90): store the node, then add a
graph edge for every entry of its `inputs`/`outputs` lists whose other
endpoint is already a stored node (the membership test runs after the
node itself was stored). -/
def add_node (p : Pipeline) (n : ProcessingNode) : Pipeline :=
  let ns := nodes_set p.nodes n
  let es1 := n.inputs.foldl
    (fun es input_id =>
      if ns.any (fun e => e.1 = input_id) then edge_add es (input_id, n.id) else es)
    p.edges
  let es2 := n.outputs.foldl
    (fun es output_id =>
      if ns.any (fun e => e.1 = output_id) then edge_add es (n.id, output_id) else es)
    es1
  { p with nodes := ns, edges := es2 }

/-- `PipelineManager.remove_node` (lines 92-107): drop the node and its
incident graph edges, and erase its id from every other node's adjacency
lists (`list.remove`, first occurrence). -/
def remove_node (p : Pipeline) (id : String) : Pipeline :=
  if has_node p id then
    { p with
      nodes := (p.nodes.filter (fun e => e.1 ≠ id)).map
        (fun e => (e.1, { e.2 with
          inputs := e.2.inputs.erase id
          outputs := e.2.outputs.erase id }))
      edges := p.edges.filter (fun e => e.1 ≠ id ∧ e.2 ≠ id) }
  else p

/-- `PipelineManager.connect_nodes` (lines 109-129): raises (state
unchanged) unless both nodes exist; otherwise records the edge in both
adjacency lists (without duplicating) and in the graph. -/
def connect_nodes (p : Pipeline) (source_id target_id : String) : Pipeline :=
  if has_node p source_id ∧ has_node p target_id then
    { p with
      nodes := p.nodes.map fun e =>
        let n1 := if e.1 = source_id ∧ target_id ∉ e.2.outputs then
            { e.2 with outputs := e.2.outputs ++ [target_id] } else e.2
        let n2 := if e.1 = target_id ∧ source_id ∉ n1.inputs then
            { n1 with inputs := n1.inputs ++ [source_id] } else n1
        (e.1, n2)
      edges := edge_add p.edges (source_id, target_id) }
  else p

/-- `PipelineManager.disconnect_nodes` (lines 131-142). -/
def disconnect_nodes (p : Pipeline) (source_id target_id : String) : Pipeline :=
  { p with
    nodes := p.nodes.map fun e =>
      let n1 := if e.1 = source_id then { e.2 with outputs := e.2.outputs.erase target_id }
        else e.2
      let n2 := if e.1 = target_id then { n1 with inputs := n1.inputs.erase source_id }
        else n1
      (e.1, n2)
    edges := p.edges.erase (source_id, target_id) }

/-- The public graph mutation operations. -/
inductive PipeOp
  | add_n (n : ProcessingNode)
  | remove_n (id : String)
  | connect (s t : String)
  | disconnect (s t : String)

def apply_pipe_op : PipeOp → Pipeline → Pipeline
  | .add_n n, p => add_node p n
  | .remove_n id, p => remove_node p id
  | .connect s t, p => connect_nodes p s t
  | .disconnect s t, p => disconnect_nodes p s t

def apply_pipe_ops (ops : List PipeOp) (p : Pipeline) : Pipeline :=
  ops.foldl (fun p op => apply_pipe_op op p) p

/-- A freshly constructed `PipelineManager` with the given registry. -/
def empty_pipeline (registry : List (String × ParamMap)) : Pipeline :=
  { nodes := [], edges := [], registry := registry }

/-! ### Directed walks and cycles -/

/-- Whether consecutive entries of the list are all graph edges (a
directed walk through `E`). -/
def walkB (E : List (String × String)) : List String → Bool
  | [] => true
  | [_] => true
  | a :: b :: rest => decide ((a, b) ∈ E) && walkB E (b :: rest)

/-- There is a directed cycle: a closed walk with at least one edge. -/
def CycleIn (E : List (String × String)) : Prop :=
  ∃ (v : String) (l : List String), walkB E (v :: l ++ [v]) = true

/-- Reachability by a walk of between 1 and `fuel` edges. -/
def reach_within (E : List (String × String)) : Nat → String → String → Bool
  | 0, _, _ => false
  | fuel + 1, u, v =>
    E.any fun e => decide (e.1 = u) && (decide (e.2 = v) || reach_within E fuel e.2 v)

/-- Executable cycle test on the graph with vertex list `V`, the model of
`not nx.is_directed_acyclic_graph(self.graph)`: some vertex reaches
itself (a simple cycle never needs more than `V.length` edges). -/
def has_cycleB (V : List String) (E : List (String × String)) : Bool :=
  V.any fun v => reach_within E V.length v v

/-- `PipelineManager.validate_pipeline` (lines 144-177): aggregate all
errors — cycles; disconnected non-input nodes (no entries in their own
`inputs` list and not listed in any node's `inputs`); no enabled
input-type node; no enabled output-type node. -/
def validate_pipeline (p : Pipeline) : Bool × List String :=
  let errors1 := if has_cycleB (p.nodes.map Prod.fst) p.edges
    then ["Pipeline contains cycles"] else []
  let errors2 := errors1 ++ p.nodes.filterMap fun e =>
    if e.2.inputs.isEmpty ∧ ¬ (p.nodes.any fun other => e.1 ∈ other.2.inputs) then
      if e.2.processor.processor_type ≠ "input" then
        some ("Node " ++ e.1 ++ " is disconnected")
      else none
    else none
  let errors3 := errors2 ++
    (if p.nodes.any (fun e => e.2.processor.processor_type = "input" ∧ e.2.enabled)
      then [] else ["No enabled input nodes"])
  let errors4 := errors3 ++
    (if p.nodes.any (fun e => e.2.processor.processor_type = "output" ∧ e.2.enabled)
      then [] else ["No enabled output nodes"])
  (errors4.isEmpty, errors4)

/-! ### C6: the edge-validity invariant, and cycles are reachable -/

/-- Every graph edge references only nodes currently in the node table. -/
def edges_valid (p : Pipeline) : Prop :=
  ∀ e ∈ p.edges, has_node p e.1 = true ∧ has_node p e.2 = true

instance (p : Pipeline) : Decidable (edges_valid p) := by
  unfold edges_valid
  infer_instance

theorem mem_edge_add {es : List (String × String)} {a e : String × String} :
    e ∈ edge_add es a ↔ e ∈ es ∨ e = a := by
  unfold edge_add
  split_ifs with h
  · constructor
    · exact Or.inl
    · rintro (he | rfl)
      · exact he
      · exact h
  · rw [List.mem_append, List.mem_singleton]

theorem mem_foldl_edge_add {β : Type} (l : List β) (es0 : List (String × String))
    (c : β → Bool) (g : β → String × String) {e : String × String}
    (h : e ∈ l.foldl (fun es x => if c x then edge_add es (g x) else es) es0) :
    e ∈ es0 ∨ ∃ x ∈ l, c x = true ∧ e = g x := by
  induction l generalizing es0 with
  | nil => exact Or.inl h
  | cons x t ih =>
    rcases ih _ h with hbase | ⟨x', hx', hc, he⟩
    · simp only at hbase
      by_cases hcx : c x = true
      · rw [if_pos hcx] at hbase
        rcases mem_edge_add.mp hbase with h2 | h2
        · exact Or.inl h2
        · exact Or.inr ⟨x, List.mem_cons_self _ _, hcx, h2⟩
      · rw [if_neg hcx] at hbase
        exact Or.inl hbase
    · exact Or.inr ⟨x', List.mem_cons_of_mem _ hx', hc, he⟩

theorem any_key_map {ns : List (String × ProcessingNode)}
    {f : String × ProcessingNode → ProcessingNode} {id : String} :
    ((ns.map (fun e => (e.1, f e))).any (fun e => e.1 = id)) =
      ns.any (fun e => e.1 = id) := by
  rw [List.any_map]
  rfl

theorem any_key_nodes_set {ns : List (String × ProcessingNode)} {n : ProcessingNode}
    {id : String} (h : ns.any (fun e => e.1 = id) = true ∨ id = n.id) :
    (nodes_set ns n).any (fun e => e.1 = id) = true := by
  unfold nodes_set
  by_cases hmem : ns.any (fun e => e.1 = n.id) = true
  · rw [if_pos hmem, List.any_map]
    rcases h with h | rfl
    · obtain ⟨e, he, hp⟩ := List.any_eq_true.mp h
      simp only [decide_eq_true_eq] at hp
      refine List.any_eq_true.mpr ⟨e, he, ?_⟩
      simp only [Function.comp_apply]
      by_cases hcase : e.1 = n.id
      · rw [if_pos hcase]
        simp only [decide_eq_true_eq]
        rw [← hcase]
        exact hp
      · rw [if_neg hcase]
        simp only [decide_eq_true_eq]
        exact hp
    · obtain ⟨e, he, hp⟩ := List.any_eq_true.mp hmem
      simp only [decide_eq_true_eq] at hp
      refine List.any_eq_true.mpr ⟨e, he, ?_⟩
      simp only [Function.comp_apply]
      rw [if_pos hp]
      simp
  · rw [if_neg hmem, List.any_append]
    rcases h with h | rfl
    · rw [h]
      rfl
    · simp

theorem has_node_remove {p : Pipeline} {rid x : String}
    (hx : has_node p x = true) (hne : x ≠ rid) :
    has_node (remove_node p rid) x = true := by
  unfold remove_node
  by_cases hid : has_node p rid = true
  · rw [if_pos hid]
    obtain ⟨e, he, hp⟩ := List.any_eq_true.mp hx
    simp only [decide_eq_true_eq] at hp
    unfold has_node
    simp only
    rw [List.any_map]
    refine List.any_eq_true.mpr ⟨e, ?_, ?_⟩
    · exact List.mem_filter.mpr ⟨he, by simp [hp, hne]⟩
    · simp only [Function.comp_apply, decide_eq_true_eq]
      exact hp
  · rw [if_neg hid]
    exact hx

theorem edges_valid_add_node {p : Pipeline} (n : ProcessingNode)
    (hv : edges_valid p) : edges_valid (add_node p n) := by
  intro e he
  have hnodes : (add_node p n).nodes = nodes_set p.nodes n := rfl
  have hkey : ∀ x : String,
      has_node p x = true ∨ x = n.id → has_node (add_node p n) x = true := by
    intro x hx
    unfold has_node
    rw [hnodes]
    exact any_key_nodes_set hx
  have he2 := he
  unfold add_node at he2
  simp only at he2
  rcases mem_foldl_edge_add _ _ _ _ he2 with he1 | ⟨x, _, hc, rfl⟩
  · rcases mem_foldl_edge_add _ _ _ _ he1 with he0 | ⟨x, _, hc, rfl⟩
    · obtain ⟨h1, h2⟩ := hv e he0
      exact ⟨hkey _ (Or.inl h1), hkey _ (Or.inl h2)⟩
    · exact ⟨hc, hkey _ (Or.inr rfl)⟩
  · exact ⟨hkey _ (Or.inr rfl), hc⟩

theorem edges_valid_remove_node {p : Pipeline} (rid : String)
    (hv : edges_valid p) : edges_valid (remove_node p rid) := by
  intro e he
  by_cases hid : has_node p rid = true
  · have hedges : (remove_node p rid).edges =
        p.edges.filter (fun e => e.1 ≠ rid ∧ e.2 ≠ rid) := by
      unfold remove_node
      rw [if_pos hid]
    rw [hedges] at he
    obtain ⟨hmem, hpred⟩ := List.mem_filter.mp he
    simp only [decide_eq_true_eq] at hpred
    obtain ⟨h1, h2⟩ := hv e hmem
    exact ⟨has_node_remove h1 hpred.1, has_node_remove h2 hpred.2⟩
  · have : remove_node p rid = p := by
      unfold remove_node
      rw [if_neg hid]
    rw [this] at he ⊢
    exact hv e he

theorem edges_valid_connect_nodes {p : Pipeline} (s t : String)
    (hv : edges_valid p) : edges_valid (connect_nodes p s t) := by
  intro e he
  unfold connect_nodes at he ⊢
  by_cases hg : has_node p s = true ∧ has_node p t = true
  · rw [if_pos hg] at he ⊢
    have hkeys : ∀ x, has_node p x = true →
        (p.nodes.map fun e =>
          (e.1, if e.1 = t ∧ s ∉ (if e.1 = s ∧ t ∉ e.2.outputs then
              { e.2 with outputs := e.2.outputs ++ [t] } else e.2).inputs then
            { (if e.1 = s ∧ t ∉ e.2.outputs then
                { e.2 with outputs := e.2.outputs ++ [t] } else e.2) with
              inputs := (if e.1 = s ∧ t ∉ e.2.outputs then
                { e.2 with outputs := e.2.outputs ++ [t] } else e.2).inputs ++ [s] }
            else (if e.1 = s ∧ t ∉ e.2.outputs then
              { e.2 with outputs := e.2.outputs ++ [t] } else e.2))).any
          (fun e => e.1 = x) = true := by
      intro x hx
      rw [any_key_map]
      exact hx
    simp only at he
    rcases mem_edge_add.mp he with he0 | rfl
    · obtain ⟨h1, h2⟩ := hv e he0
      exact ⟨hkeys _ h1, hkeys _ h2⟩
    · exact ⟨hkeys _ hg.1, hkeys _ hg.2⟩
  · rw [if_neg hg] at he ⊢
    exact hv e he

theorem edges_valid_disconnect_nodes {p : Pipeline} (s t : String)
    (hv : edges_valid p) : edges_valid (disconnect_nodes p s t) := by
  intro e he
  unfold disconnect_nodes at he ⊢
  simp only at he
  have hmem : e ∈ p.edges := List.mem_of_mem_erase he
  obtain ⟨h1, h2⟩ := hv e hmem
  constructor <;> · unfold has_node; simp only; rw [any_key_map]; assumption

theorem edges_valid_apply_op (op : PipeOp) {p : Pipeline}
    (hv : edges_valid p) : edges_valid (apply_pipe_op op p) := by
  cases op with
  | add_n n => exact edges_valid_add_node n hv
  | remove_n id => exact edges_valid_remove_node id hv
  | connect s t => exact edges_valid_connect_nodes s t hv
  | disconnect s t => exact edges_valid_disconnect_nodes s t hv

theorem edges_valid_apply_ops (ops : List PipeOp) {p : Pipeline}
    (hv : edges_valid p) : edges_valid (apply_pipe_ops ops p) := by
  induction ops generalizing p with
  | nil => exact hv
  | cons op rest ih => exact ih (edges_valid_apply_op op hv)

/-- A trivial processor used in concrete pipelines. -/
def demo_processor (t : String) : Processor :=
  { processor_type := t, name := t, parameters := [] }

/-- A fresh node with no connections. -/
def demo_node (id t : String) : ProcessingNode :=
  { id := id
    processor := demo_processor t
    inputs := []
    outputs := []
    parameters := []
    enabled := true }

/-- Add two nodes and connect them both ways. -/
def demo_cycle_ops : List PipeOp :=
  [.add_n (demo_node "a" "input"), .add_n (demo_node "b" "output"),
    .connect "a" "b", .connect "b" "a"]

/-- C6 (refuting evidence for the acyclicity half): the public mutation
operations can produce a cyclic graph — `connect_nodes` never checks for
cycles, so connecting two nodes in both directions leaves a 2-cycle in
the graph. -/
theorem pipeline_mutations_can_create_cycle :
    CycleIn (apply_pipe_ops demo_cycle_ops (empty_pipeline [])).edges ∧
    ("a", "b") ∈ (apply_pipe_ops demo_cycle_ops (empty_pipeline [])).edges ∧
    ("b", "a") ∈ (apply_pipe_ops demo_cycle_ops (empty_pipeline [])).edges :=
  ⟨⟨"a", ["b"], by decide⟩, by decide, by decide⟩

/-- C6 (amended): after every sequence of public mutation operations
starting from a fresh manager, every graph edge references only nodes
currently present in the node table.  (Acyclicity, by contrast, is not
an invariant — see the accompanying counterexample.) -/
theorem pipeline_edges_reference_existing_nodes
    (registry : List (String × ParamMap)) (ops : List PipeOp) :
    edges_valid (apply_pipe_ops ops (empty_pipeline registry)) :=
  edges_valid_apply_ops ops (fun _ he => absurd he (List.not_mem_nil _))

/-! ### Correctness of the cycle test

`has_cycleB` agrees with the existence of a directed cycle whenever every
edge endpoint is a listed vertex (which the pipeline manager maintains,
see C6): soundness is immediate, completeness shortens an arbitrary
closed walk below the vertex count by splicing out a repeated vertex. -/

theorem band_elim {a b : Bool} (h : (a && b) = true) : a = true ∧ b = true := by
  simp only [Bool.and_eq_true] at h
  exact h

theorem band_intro {a b : Bool} (h1 : a = true) (h2 : b = true) : (a && b) = true := by
  simp only [Bool.and_eq_true]
  exact ⟨h1, h2⟩

theorem bor_elim {a b : Bool} (h : (a || b) = true) : a = true ∨ b = true := by
  simp only [Bool.or_eq_true] at h
  exact h

theorem bor_intro_right {a b : Bool} (h : b = true) : (a || b) = true := by
  simp only [Bool.or_eq_true]
  exact Or.inr h

theorem walk_first_edge {E : List (String × String)} {a b : String} {rest : List String}
    (h : walkB E (a :: b :: rest) = true) : (a, b) ∈ E := by
  unfold walkB at h
  exact of_decide_eq_true (band_elim h).1

theorem reach_within_sound {E : List (String × String)} :
    ∀ (fuel : Nat) (u v : String), reach_within E fuel u v = true →
      ∃ l, walkB E (u :: l ++ [v]) = true := by
  intro fuel
  induction fuel with
  | zero => intro u v h; exact absurd h (by simp [reach_within])
  | succ f ih =>
    intro u v h
    obtain ⟨e, he, hp⟩ := List.any_eq_true.mp h
    obtain ⟨h1, h2⟩ := band_elim hp
    have hu : e.1 = u := of_decide_eq_true h1
    rcases bor_elim h2 with h3 | h3
    · have hv : e.2 = v := of_decide_eq_true h3
      have he' : (u, v) ∈ E := by
        have heq : e = (u, v) := by
          cases e
          simp_all
        rw [← heq]
        exact he
      refine ⟨[], ?_⟩
      show (decide ((u, v) ∈ E) && walkB E [v]) = true
      rw [decide_eq_true he']
      rfl
    · obtain ⟨l, hl⟩ := ih e.2 v h3
      have he' : (u, e.2) ∈ E := by
        have heq : e = (u, e.2) := by
          cases e
          simp_all
        rw [← heq]
        exact he
      refine ⟨e.2 :: l, ?_⟩
      show (decide ((u, e.2) ∈ E) && walkB E (e.2 :: l ++ [v])) = true
      rw [decide_eq_true he', hl]
      rfl

theorem walk_reach {E : List (String × String)} :
    ∀ (l : List String) (u v : String) (fuel : Nat),
      walkB E (u :: l ++ [v]) = true → l.length + 1 ≤ fuel →
      reach_within E fuel u v = true := by
  intro l
  induction l with
  | nil =>
    intro u v fuel hw hf
    match fuel, hf with
    | f + 1, _ =>
      have he : (u, v) ∈ E := walk_first_edge hw
      refine List.any_eq_true.mpr ⟨(u, v), he, ?_⟩
      simp
  | cons b t ih =>
    intro u v fuel hw hf
    match fuel, hf with
    | f + 1, hf =>
      have he : (u, b) ∈ E := walk_first_edge hw
      have hw2 : walkB E (b :: t ++ [v]) = true := by
        have := (band_elim hw).2
        exact this
      have hr := ih b v f hw2 (by simp at hf ⊢; omega)
      refine List.any_eq_true.mpr ⟨(u, b), he, ?_⟩
      simp only [decide_eq_true_eq]
      exact band_intro (by simp) (bor_intro_right hr)

theorem walk_append_cons {E : List (String × String)} (a : String) (ys : List String) :
    ∀ xs : List String,
      walkB E (xs ++ a :: ys) = (walkB E (xs ++ [a]) && walkB E (a :: ys)) := by
  intro xs
  induction xs with
  | nil => simp [walkB]
  | cons x xs' ih =>
    cases xs' with
    | nil =>
      show walkB E (x :: a :: ys) = (walkB E [x, a] && walkB E (a :: ys))
      cases ys with
      | nil => simp [walkB]
      | cons c t =>
        show (decide ((x, a) ∈ E) && walkB E (a :: c :: t)) =
          ((decide ((x, a) ∈ E) && walkB E [a]) && walkB E (a :: c :: t))
        simp [walkB, Bool.and_assoc]
    | cons y rest =>
      show (decide ((x, y) ∈ E) && walkB E (y :: rest ++ a :: ys)) =
        ((decide ((x, y) ∈ E) && walkB E (y :: rest ++ [a])) && walkB E (a :: ys))
      rw [ih, Bool.and_assoc]

theorem walk_splice {E : List (String × String)} {l₁ l₂ l₃ : List String} {a : String}
    (h : walkB E (l₁ ++ a :: l₂ ++ a :: l₃) = true) :
    walkB E (l₁ ++ a :: l₃) = true := by
  have h1 : walkB E (l₁ ++ a :: (l₂ ++ a :: l₃)) = true := by
    simpa using h
  rw [walk_append_cons] at h1
  obtain ⟨ha, hb⟩ := band_elim h1
  have hb' : walkB E ((a :: l₂) ++ a :: l₃) = true := hb
  rw [walk_append_cons] at hb'
  obtain ⟨_, hc⟩ := band_elim hb'
  rw [walk_append_cons]
  exact band_intro ha hc

theorem walk_vertex_endpoint {E : List (String × String)} :
    ∀ (l : List String), walkB E l = true → 2 ≤ l.length →
      ∀ z ∈ l, ∃ e ∈ E, z = e.1 ∨ z = e.2 := by
  intro l
  induction l with
  | nil => intro _ h; simp at h
  | cons a t ih =>
    intro hw hlen z hz
    match t, hlen with
    | b :: rest, _ =>
      have he : (a, b) ∈ E := walk_first_edge hw
      have hw2 : walkB E (b :: rest) = true := (band_elim hw).2
      rcases List.mem_cons.mp hz with rfl | hz'
      · exact ⟨(z, b), he, Or.inl rfl⟩
      · cases rest with
        | nil =>
          rw [List.mem_singleton.mp hz']
          exact ⟨(a, b), he, Or.inr rfl⟩
        | cons c t' =>
          exact ih hw2 (by simp) z hz'

theorem exists_dup_split {α : Type} {l : List α} (h : ¬ l.Nodup) :
    ∃ (a : α) (l₁ l₂ l₃ : List α), l = l₁ ++ a :: l₂ ++ a :: l₃ := by
  induction l with
  | nil => exact absurd List.nodup_nil h
  | cons x t ih =>
    by_cases hx : x ∈ t
    · obtain ⟨l₂, l₃, rfl⟩ := List.append_of_mem hx
      exact ⟨x, [], l₂, l₃, rfl⟩
    · have ht : ¬ t.Nodup := fun hd => h (List.nodup_cons.mpr ⟨hx, hd⟩)
      obtain ⟨a, l₁, l₂, l₃, rfl⟩ := ih ht
      exact ⟨a, x :: l₁, l₂, l₃, rfl⟩

theorem not_nodup_of_len_gt {α : Type} [DecidableEq α] {l V : List α}
    (hsub : ∀ x ∈ l, x ∈ V) (hlen : V.length < l.length) : ¬ l.Nodup := by
  intro hd
  have := (hd.subperm fun x hx => hsub x hx).length_le
  omega

theorem closed_walk_has_cycleB {V : List String} {E : List (String × String)}
    (hval : ∀ e ∈ E, e.1 ∈ V ∧ e.2 ∈ V) :
    ∀ (n : Nat) (v : String) (l : List String), l.length ≤ n →
      walkB E (v :: l ++ [v]) = true → has_cycleB V E = true := by
  intro n
  induction n with
  | zero =>
    intro v l hlen hw
    have hl : l = [] := List.length_eq_zero.mp (by omega)
    subst hl
    have he : (v, v) ∈ E := walk_first_edge hw
    have hv : v ∈ V := (hval _ he).1
    refine List.any_eq_true.mpr ⟨v, hv, ?_⟩
    exact walk_reach [] v v V.length hw (by
      have := List.length_pos_of_mem hv
      omega)
  | succ n ih =>
    intro v l hlen hw
    by_cases hfit : l.length + 1 ≤ V.length
    · have hv : v ∈ V := by
        cases hl : l with
        | nil =>
          rw [hl] at hw
          exact (hval _ (walk_first_edge hw)).1
        | cons c t =>
          rw [hl] at hw
          exact (hval _ (walk_first_edge hw)).1
      exact List.any_eq_true.mpr ⟨v, hv, walk_reach l v v V.length hw hfit⟩
    · -- the closed walk is longer than the vertex count: splice out a repeat
      have hsub : ∀ z ∈ v :: l, z ∈ V := by
        intro z hz
        have hz' : z ∈ v :: l ++ [v] := by
          rcases List.mem_cons.mp hz with rfl | h
          · exact List.mem_cons_self _ _
          · exact List.mem_cons_of_mem _ (List.mem_append_left _ h)
        obtain ⟨e, he, hor⟩ := walk_vertex_endpoint _ hw (by simp) z hz'
        rcases hor with rfl | rfl
        · exact (hval e he).1
        · exact (hval e he).2
      have hnd : ¬ (v :: l).Nodup :=
        not_nodup_of_len_gt hsub (by simp; omega)
      obtain ⟨a, l₁, l₂, l₃, hsplit⟩ := exists_dup_split hnd
      have hwfull : walkB E (l₁ ++ a :: l₂ ++ a :: (l₃ ++ [v])) = true := by
        have : v :: l ++ [v] = l₁ ++ a :: l₂ ++ a :: (l₃ ++ [v]) := by
          rw [show v :: l ++ [v] = (v :: l) ++ [v] by rfl, hsplit]
          simp
        rw [← this]
        exact hw
      have hspliced : walkB E (l₁ ++ a :: (l₃ ++ [v])) = true := walk_splice hwfull
      cases l₁ with
      | nil =>
        -- the duplicate is the start vertex itself
        have hva : v = a := by
          have := congrArg (fun x => x.head?) hsplit
          simpa using this
        subst hva
        have hlen3 : l₃.length ≤ n := by
          have := congrArg List.length hsplit
          simp at this
          omega
        exact ih v l₃ hlen3 (by simpa using hspliced)
      | cons x l₁' =>
        have hvx : v = x := by
          have := congrArg (fun x => x.head?) hsplit
          simpa using this
        subst hvx
        have hlen' : (l₁' ++ a :: l₃).length ≤ n := by
          have := congrArg List.length hsplit
          simp at this ⊢
          omega
        refine ih v (l₁' ++ a :: l₃) hlen' ?_
        have : v :: (l₁' ++ a :: l₃) ++ [v] = (v :: l₁') ++ a :: (l₃ ++ [v]) := by
          simp
        rw [this]
        exact hspliced

/-- Completeness of the executable cycle test: a real directed cycle in a
graph whose edges stay within the vertex list is always reported. -/
theorem cycle_has_cycleB {V : List String} {E : List (String × String)}
    (hval : ∀ e ∈ E, e.1 ∈ V ∧ e.2 ∈ V) (hcyc : CycleIn E) :
    has_cycleB V E = true := by
  obtain ⟨v, l, hw⟩ := hcyc
  exact closed_walk_has_cycleB hval l.length v l (Nat.le_refl _) hw

/-- Soundness of the executable cycle test. -/
theorem has_cycleB_sound {V : List String} {E : List (String × String)}
    (h : has_cycleB V E = true) : CycleIn E := by
  obtain ⟨v, _, hr⟩ := List.any_eq_true.mp h
  obtain ⟨l, hl⟩ := reach_within_sound V.length v v hr
  exact ⟨v, l, hl⟩

/-! ### C4: validate_pipeline -/

theorem has_node_iff_mem_keys {p : Pipeline} {x : String} :
    has_node p x = true ↔ x ∈ p.nodes.map Prod.fst := by
  unfold has_node
  rw [List.any_eq_true]
  constructor
  · rintro ⟨e, he, hp⟩
    simp only [decide_eq_true_eq] at hp
    exact List.mem_map.mpr ⟨e, he, hp⟩
  · intro h
    obtain ⟨e, he, hp⟩ := List.mem_map.mp h
    exact ⟨e, he, by simp [hp]⟩

/-- C4 (amended): for a pipeline whose edges reference existing nodes,
with at least one enabled input-type node, at least one enabled
output-type node, no directed cycle, and in which every node that is not
an input-type node has an inbound connection (a nonempty `inputs` list or
an appearance in some node's `inputs`), `validate_pipeline` returns
ok with an empty error list; and connecting any two nodes so that a
cycle appears makes it return not-ok with the cycle error listed. -/
theorem validate_pipeline_ok_and_cycle_error (p : Pipeline)
    (hv : edges_valid p)
    (hacyclic : ¬ CycleIn p.edges)
    (hin : ∃ e ∈ p.nodes, e.2.processor.processor_type = "input" ∧ e.2.enabled = true)
    (hout : ∃ e ∈ p.nodes, e.2.processor.processor_type = "output" ∧ e.2.enabled = true)
    (hconn : ∀ e ∈ p.nodes, e.2.processor.processor_type ≠ "input" →
      e.2.inputs ≠ [] ∨ ∃ other ∈ p.nodes, e.1 ∈ other.2.inputs) :
    validate_pipeline p = (true, []) ∧
    (∀ s t, CycleIn (connect_nodes p s t).edges →
      (validate_pipeline (connect_nodes p s t)).1 = false ∧
      "Pipeline contains cycles" ∈ (validate_pipeline (connect_nodes p s t)).2) := by
  constructor
  · have hcyc : has_cycleB (p.nodes.map Prod.fst) p.edges = false := by
      cases hcy : has_cycleB (p.nodes.map Prod.fst) p.edges
      · rfl
      · exact absurd (has_cycleB_sound hcy) hacyclic
    have hfm : (p.nodes.filterMap fun e =>
        if e.2.inputs.isEmpty ∧ ¬ (p.nodes.any fun other => e.1 ∈ other.2.inputs) then
          if e.2.processor.processor_type ≠ "input" then
            some ("Node " ++ e.1 ++ " is disconnected")
          else none
        else none) = [] := by
      rw [List.filterMap_eq_nil_iff]
      intro e he
      by_cases htype : e.2.processor.processor_type = "input"
      · split_ifs with h1 h2
        · exact absurd htype h2
        · rfl
        · rfl
      · rcases hconn e he htype with hne | ⟨other, hother, hmem⟩
        · rw [if_neg]
          intro ⟨h1, _⟩
          exact hne (List.isEmpty_iff.mp h1)
        · rw [if_neg]
          intro ⟨_, h2⟩
          exact h2 (List.any_eq_true.mpr ⟨other, hother, by simpa using hmem⟩)
    have hany_in : (p.nodes.any fun e =>
        e.2.processor.processor_type = "input" ∧ e.2.enabled) = true := by
      obtain ⟨e, he, h1, h2⟩ := hin
      exact List.any_eq_true.mpr ⟨e, he, by simp [h1, h2]⟩
    have hany_out : (p.nodes.any fun e =>
        e.2.processor.processor_type = "output" ∧ e.2.enabled) = true := by
      obtain ⟨e, he, h1, h2⟩ := hout
      exact List.any_eq_true.mpr ⟨e, he, by simp [h1, h2]⟩
    unfold validate_pipeline
    rw [hcyc, hfm, hany_in, hany_out]
    rfl
  · intro s t hcyc
    have hv' : edges_valid (connect_nodes p s t) := edges_valid_connect_nodes s t hv
    have hval : ∀ e ∈ (connect_nodes p s t).edges,
        e.1 ∈ (connect_nodes p s t).nodes.map Prod.fst ∧
        e.2 ∈ (connect_nodes p s t).nodes.map Prod.fst := by
      intro e he
      obtain ⟨h1, h2⟩ := hv' e he
      exact ⟨has_node_iff_mem_keys.mp h1, has_node_iff_mem_keys.mp h2⟩
    have hcb : has_cycleB ((connect_nodes p s t).nodes.map Prod.fst)
        (connect_nodes p s t).edges = true := cycle_has_cycleB hval hcyc
    constructor
    · show ((validate_pipeline (connect_nodes p s t)).2.isEmpty) = false
      have hmem : "Pipeline contains cycles" ∈ (validate_pipeline (connect_nodes p s t)).2 := by
        unfold validate_pipeline
        rw [hcb]
        simp
      cases hl : (validate_pipeline (connect_nodes p s t)).2 with
      | nil => rw [hl] at hmem; exact absurd hmem (List.not_mem_nil _)
      | cons a l => rfl
    · unfold validate_pipeline
      rw [hcb]
      simp

/-- Two nodes, an enabled input and an enabled output, never connected. -/
def demo_disconnected : Pipeline :=
  apply_pipe_ops [.add_n (demo_node "i" "input"), .add_n (demo_node "o" "output")]
    (empty_pipeline [])

/-- C4 (refuting evidence): a pipeline with an enabled input node and an
enabled output node and no cycle on which `validate_pipeline` still
fails — the output node has no inbound edge and is flagged as
disconnected, so the claimed hypotheses do not suffice for ok=true. -/
theorem validate_disconnected_counterexample :
    (∃ e ∈ demo_disconnected.nodes,
      e.2.processor.processor_type = "input" ∧ e.2.enabled = true) ∧
    (∃ e ∈ demo_disconnected.nodes,
      e.2.processor.processor_type = "output" ∧ e.2.enabled = true) ∧
    ¬ CycleIn demo_disconnected.edges ∧
    validate_pipeline demo_disconnected = (false, ["Node o is disconnected"]) := by
  refine ⟨by decide, by decide, ?_, by decide⟩
  rintro ⟨v, l, hw⟩
  have hedges : demo_disconnected.edges = [] := by decide
  rw [hedges] at hw
  cases l with
  | nil => exact absurd (walk_first_edge hw) (List.not_mem_nil _)
  | cons c topt => exact absurd (walk_first_edge hw) (List.not_mem_nil _)

/-- A valid pipeline: enabled input `i` connected to enabled output `o`. -/
def demo_valid_pipeline : Pipeline :=
  apply_pipe_ops [.add_n (demo_node "i" "input"), .add_n (demo_node "o" "output"),
    .connect "i" "o"] (empty_pipeline [])

/-- Witness for the amended C4 on the two-node input-to-output pipeline. -/
theorem validate_pipeline_ok_and_cycle_error_witness :
    edges_valid demo_valid_pipeline ∧
    (¬ CycleIn demo_valid_pipeline.edges) ∧
    (validate_pipeline demo_valid_pipeline = (true, []) ∧
    (∀ s t, CycleIn (connect_nodes demo_valid_pipeline s t).edges →
      (validate_pipeline (connect_nodes demo_valid_pipeline s t)).1 = false ∧
      "Pipeline contains cycles" ∈
        (validate_pipeline (connect_nodes demo_valid_pipeline s t)).2)) := by
  have hacyc : ¬ CycleIn demo_valid_pipeline.edges := by
    intro hcyc
    have hval : ∀ e ∈ demo_valid_pipeline.edges,
        e.1 ∈ demo_valid_pipeline.nodes.map Prod.fst ∧
        e.2 ∈ demo_valid_pipeline.nodes.map Prod.fst := by decide
    have := cycle_has_cycleB hval hcyc
    rw [show has_cycleB (demo_valid_pipeline.nodes.map Prod.fst)
        demo_valid_pipeline.edges = false by decide] at this
    exact Bool.false_ne_true this
  exact ⟨by decide, hacyc,
    validate_pipeline_ok_and_cycle_error demo_valid_pipeline (by decide) hacyc
      (by decide) (by decide) (by decide)⟩

/-! ## BaseProcessor.process and PipelineManager.process_image

Embedding of `base_processor.py` lines 85-129 and `pipeline_manager.py`
lines 196-276.  A processor implementation is abstracted by its
`process_preview`/`process_full` operations; the memory-status read of
`can_process_in_memory` is passed in as a boolean.  The embedding counts,
per call, how often the code path consults the fit check and how often it
builds a chunk decomposition, which is what C2 and C10 are about. -/

/-- An implementation of the abstract processor operations. -/
structure ProcessorImpl where
  process_preview : Image → Image
  process_full : Image → Image
  supports_tiled_processing : Bool

/-- The `image`/`preview` fields of a `ProcessingResult`. -/
structure ProcResult where
  image : Image
  preview : Option Image

/-- Instrumentation of one `BaseProcessor.process` call: how many times
`can_process_in_memory` ran and how many chunk decompositions
(`calculate_chunks`) were built. -/
structure ProcStats where
  fit_checks : Nat
  decompositions : Nat
  full_calls : Nat

/-- `BaseProcessor._generate_preview` (lines 131-145), with the cv2
resize abstracted as a function. -/
def generate_preview (resize : Image → Image) (img : Image) : Image :=
  if max img.height img.width ≤ 800 then img else resize img

/-- `BaseProcessor.process` (lines 85-129).  With `preview_only` the
result is `process_preview` of the full input, no fit check and no
chunking.  Otherwise a preview is produced, then one fit check runs
(line 107); if tiling is supported and the image does not fit,
`process_large_image` runs — which checks the fit again (line 289) and
decomposes the image into chunks, applying `process_chunk`
(default: `process_full`) per chunk. -/
def base_process (impl : ProcessorImpl) (resize : Image → Image) (canFit : Bool)
    (chunkSize : Nat) (img : Image) (preview_only : Bool) : ProcResult × ProcStats :=
  if preview_only then
    let processed := impl.process_preview img
    ({ image := processed, preview := some processed },
     { fit_checks := 0, decompositions := 0, full_calls := 0 })
  else
    let preview := impl.process_preview (generate_preview resize img)
    if impl.supports_tiled_processing ∧ canFit = false then
      ({ image :=
           merge_chunks
             (process_chunked_list img chunkSize (fun d => some (impl.process_full d)))
             img.height img.width
         preview := some preview },
       { fit_checks := 2
         decompositions := 1
         full_calls := (calculate_chunks img.height img.width chunkSize).length })
    else if impl.supports_tiled_processing then
      ({ image := impl.process_full img, preview := some preview },
       { fit_checks := 1, decompositions := 0, full_calls := 1 })
    else
      ({ image := impl.process_full img, preview := some preview },
       { fit_checks := 0, decompositions := 0, full_calls := 1 })

/-- Instrumentation of one `PipelineManager.process_image` call. -/
structure RunStats where
  nodes_executed : Nat
  decompositions : Nat

/-- `PipelineManager.process_image`/`_process_image_chunked`
(lines 196-276), at the granularity C2 needs.  When the loaded image does
not fit the memory budget, control goes to `_process_image_chunked`,
which is an unimplemented placeholder: it calls `process_image` again
passing the in-memory array where a filesystem path is expected, so the
`cv2.imread` load step of the recursive call fails and the run raises
`ValueError("Failed to load image: ...")` — no node executes and no
chunk decomposition is built.  When the image fits, the enabled nodes run
in execution order (raising if the order is empty), with no chunk
decomposition at this level. -/
def process_image_run (canFit : Bool) (execution_order : List String) :
    Except String RunStats :=
  if canFit = false then
    Except.error "Failed to load image"
  else if execution_order.isEmpty then
    Except.error "No valid execution path in pipeline"
  else
    Except.ok { nodes_executed := execution_order.length, decompositions := 0 }

/-- C10: with `preview_only = true`, `process` returns `process_preview`
of the full input image in both the `image` and `preview` fields, runs no
memory-fit check, builds no chunk decomposition, and never calls
`process_full`. -/
theorem base_process_preview_only (impl : ProcessorImpl) (resize : Image → Image)
    (canFit : Bool) (chunkSize : Nat) (img : Image) :
    (base_process impl resize canFit chunkSize img true).1.image =
      impl.process_preview img ∧
    (base_process impl resize canFit chunkSize img true).1.preview =
      some (impl.process_preview img) ∧
    (base_process impl resize canFit chunkSize img true).2.fit_checks = 0 ∧
    (base_process impl resize canFit chunkSize img true).2.decompositions = 0 ∧
    (base_process impl resize canFit chunkSize img true).2.full_calls = 0 :=
  ⟨rfl, rfl, rfl, rfl, rfl⟩

/-- C2 (refuting evidence): for an image the fit check rejects,
`process_image` raises out of the placeholder chunked path — zero nodes
execute and zero chunk decompositions exist, so no single decomposition
is reused across the node chain; and each node's own
`BaseProcessor.process`, the only chunking that does exist in the code,
independently re-runs the fit check (twice) and builds its own
decomposition on every non-fitting image it is handed. -/
theorem process_image_chunked_placeholder :
    (∀ execution_order : List String,
      process_image_run false execution_order = Except.error "Failed to load image") ∧
    (∀ (impl : ProcessorImpl) (resize : Image → Image) (chunkSize : Nat) (img : Image),
      impl.supports_tiled_processing = true →
      (base_process impl resize false chunkSize img false).2.fit_checks = 2 ∧
      (base_process impl resize false chunkSize img false).2.decompositions = 1) := by
  refine ⟨fun _ => rfl, ?_⟩
  intro impl resize chunkSize img hsupp
  unfold base_process
  rw [if_neg (by simp), if_pos ⟨hsupp, rfl⟩]
  exact ⟨rfl, rfl⟩

/-- A pass-through processor implementation. -/
def demo_impl : ProcessorImpl :=
  { process_preview := fun i => i
    process_full := fun i => i
    supports_tiled_processing := true }

/-- Witness for C2 at a concrete run. -/
theorem process_image_chunked_placeholder_witness :
    process_image_run false ["n1", "n2"] = Except.error "Failed to load image" ∧
    (demo_impl.supports_tiled_processing = true ∧
      (base_process demo_impl (fun i => i) false 2048 demo_image_300 false).2.fit_checks = 2 ∧
      (base_process demo_impl (fun i => i) false 2048 demo_image_300 false).2.decompositions
        = 1) :=
  ⟨process_image_chunked_placeholder.1 ["n1", "n2"],
    rfl,
    process_image_chunked_placeholder.2 demo_impl (fun i => i) 2048 demo_image_300 rfl⟩

/-! ## save_pipeline / load_pipeline

Embedding of `pipeline_manager.py` lines 278-359.  The configuration
document has a `nodes` object (id → saved node fields, insertion order
preserved by Python's `json`) and a `processors` object keyed by the
composite `"type:name"` string.  `load_pipeline` clears the manager and
walks the saved nodes in order: an unregistered processor type is
skipped with a warning, and for a registered type the code runs
`processor = processor_class(name=node_config["processor_name"],
processor_type=processor_type)` (lines 335-339).  That keyword call
only succeeds when the registered class's `__init__` binds the `name`
and `processor_type` keywords; every processor class the repository
registers (`main.py` lines 250-256, `test_pipeline.py` lines 39-43:
`InputProcessor`, `OutputProcessor`, `ExposureProcessor`,
`BrightnessProcessor`, `ColorBalanceProcessor`, `ContrastProcessor`,
`QualityAssessmentProcessor`) defines `def __init__(self):` with no
further parameters, so for those classes the call raises `TypeError`
and the load aborts with the exception.  The registry therefore
records, per class, whether its `__init__` accepts the two keywords,
and the parameter defaults its constructor installs. -/

/-- Generic `d[k] = v` on a String-keyed insertion-ordered dict. -/
def assoc_set {β : Type} (d : List (String × β)) (k : String) (v : β) :
    List (String × β) :=
  if d.any (fun e => e.1 = k) then d.map (fun e => if e.1 = k then (k, v) else e)
  else d ++ [(k, v)]

/-- Generic dict lookup. -/
def assoc_lookup {β : Type} (d : List (String × β)) (k : String) : Option β :=
  (d.find? (fun e => e.1 = k)).map Prod.snd

/-- One entry of the saved `nodes` object (the `position` field is
omitted, as everywhere in this model). -/
structure SavedNode where
  processor_type : String
  processor_name : String
  inputs : List String
  outputs : List String
  parameters : ParamMap
  enabled : Bool
deriving DecidableEq, Repr

/-- The node fields `save_pipeline` writes. -/
def save_node (n : ProcessingNode) : SavedNode :=
  { processor_type := n.processor.processor_type
    processor_name := n.processor.name
    inputs := n.inputs
    outputs := n.outputs
    parameters := n.parameters
    enabled := n.enabled }

/-- The composite `"type:name"` key of the `processors` object. -/
def proc_key (n : ProcessingNode) : String :=
  n.processor.processor_type ++ ":" ++ n.processor.name

/-- `PipelineManager.save_pipeline` (lines 278-310): the `nodes` object
in table order, and the `processors` object built by writing every
node's processor parameters under its composite key (later nodes
overwrite earlier ones sharing a key). -/
def save_pipeline (p : Pipeline) :
    List (String × SavedNode) × List (String × ParamMap) :=
  (p.nodes.map (fun e => (e.1, save_node e.2)),
   p.nodes.foldl (fun acc e => assoc_set acc (proc_key e.2) e.2.processor.parameters) [])

/-- A registered processor class as `_processor_registry` holds it:
whether its `__init__` binds the `name=`/`processor_type=` keywords
`load_pipeline` passes (false for every class this repository
registers, all of which define `def __init__(self):`), and the
parameter defaults the constructor installs (restricted to
integer-valued entries, like every `ParamMap` in this model). -/
structure ProcessorClass where
  init_accepts_kwargs : Bool
  defaults : ParamMap
deriving DecidableEq, Repr

/-- The Python message of the exception raised when a keyword call does
not match the callee signature, as for `processor_class(name=...,
processor_type=...)` against `def __init__(self):`. -/
def type_error_msg : String :=
  "TypeError: __init__() got an unexpected keyword argument"

/-- The node `load_pipeline` rebuilds from a saved entry when the
constructor call succeeds (registered class's `__init__` binds the
keywords): processor with the class defaults, updated by
`set_parameters(**config["processors"][key])` when the composite key
is present. -/
def load_node (cfgProcs : List (String × ParamMap)) (defaults : ParamMap)
    (id : String) (sn : SavedNode) : ProcessingNode :=
  { id := id
    processor :=
      { processor_type := sn.processor_type
        name := sn.processor_name
        parameters :=
          match assoc_lookup cfgProcs (sn.processor_type ++ ":" ++ sn.processor_name) with
          | some m => dict_update defaults m
          | none => defaults }
    inputs := sn.inputs
    outputs := sn.outputs
    parameters := sn.parameters
    enabled := sn.enabled }

/-- The node loop of `load_pipeline` (lines 327-357): skip a saved node
whose processor type is not registered; for a registered type run the
constructor call, which raises `TypeError` out of the whole load when
the class's `__init__` does not bind the keywords, and otherwise
builds the node and replays `add_node`. -/
def load_pipeline_go (registry : List (String × ProcessorClass))
    (cfgProcs : List (String × ParamMap)) :
    List (String × SavedNode) → Pipeline → Except String Pipeline
  | [], p => Except.ok p
  | entry :: rest, p =>
    match assoc_lookup registry entry.2.processor_type with
    | none => load_pipeline_go registry cfgProcs rest p
    | some cls =>
      if cls.init_accepts_kwargs then
        load_pipeline_go registry cfgProcs rest
          (add_node p (load_node cfgProcs cls.defaults entry.1 entry.2))
      else Except.error type_error_msg

/-- `PipelineManager.load_pipeline` (lines 312-359): clear the node
table and the graph (the manager keeps its registry), then run the
node loop; an uncaught `TypeError` from a constructor call surfaces as
`Except.error`. -/
def load_pipeline (registry : List (String × ProcessorClass))
    (cfg : List (String × SavedNode) × List (String × ParamMap)) :
    Except String Pipeline :=
  load_pipeline_go registry cfg.2 cfg.1
    (empty_pipeline (registry.map (fun e => (e.1, e.2.defaults))))


/-- The processor registry the backend builds (`main.py` lines
250-256).  Every entry records that the class defines
`def __init__(self):` — none of the seven classes in
`src/python-backend/processors/` binds the `name`/`processor_type`
keywords — together with the integer-valued parameter defaults its
constructor installs (`Input`/`Output` install none; float-, string-
and boolean-valued defaults such as `exposure_value`, `algorithm` or
`auto_mode` fall outside `ParamMap`, and no theorem below depends on a
`defaults` field: the constructor call raises before they could
matter). -/
def shipped_registry : List (String × ProcessorClass) :=
  [("input", { init_accepts_kwargs := false, defaults := [] }),
   ("output", { init_accepts_kwargs := false, defaults := [] }),
   ("exposure", { init_accepts_kwargs := false, defaults := [] }),
   ("brightness", { init_accepts_kwargs := false, defaults := [("brightness", 0)] }),
   ("color_balance",
    { init_accepts_kwargs := false, defaults := [("temperature", 0), ("tint", 0)] }),
   ("contrast", { init_accepts_kwargs := false, defaults := [("contrast", 0)] }),
   ("quality_assessment", { init_accepts_kwargs := false, defaults := [] })]

/-- Unfolding equation of the node loop at a cons cell. -/
theorem load_pipeline_go_cons (registry : List (String × ProcessorClass))
    (cfgProcs : List (String × ParamMap)) (id : String) (sn : SavedNode)
    (rest : List (String × SavedNode)) (p : Pipeline) :
    load_pipeline_go registry cfgProcs ((id, sn) :: rest) p =
      match assoc_lookup registry sn.processor_type with
      | none => load_pipeline_go registry cfgProcs rest p
      | some cls =>
        if cls.init_accepts_kwargs then
          load_pipeline_go registry cfgProcs rest
            (add_node p (load_node cfgProcs cls.defaults id sn))
        else Except.error type_error_msg := rfl

/-- A successful dict lookup returns a value stored in the dict. -/
theorem assoc_lookup_mem {β : Type} {d : List (String × β)} {k : String} {v : β}
    (h : assoc_lookup d k = some v) : ∃ k2, (k2, v) ∈ d := by
  unfold assoc_lookup at h
  cases hf : d.find? (fun e => e.1 = k) with
  | none => rw [hf] at h; simp at h
  | some pair =>
    rw [hf] at h
    have hmem := List.mem_of_find?_eq_some hf
    have hv : pair.2 = v := Option.some.inj h
    exact ⟨pair.1, by rw [← hv]; exact hmem⟩

/-- A one-node pipeline: a single Brightness node whose processor type
is registered. -/
def demo_saved_pipeline : Pipeline :=
  { nodes :=
      [("n1", { id := "n1"
                processor := { processor_type := "brightness"
                               name := "Brightness"
                               parameters := [("brightness", 50)] }
                inputs := []
                outputs := []
                parameters := []
                enabled := true })]
    edges := []
    registry := [("brightness", [("brightness", 0)])] }

/-- C3: the claimed save/load round-trip never takes place — loading
crashes.  For every pipeline with at least one node, all of whose
processor types are registered, and in a registry in which (as for
every class this repository registers, each defining
`def __init__(self):`) no class's `__init__` binds the
`name`/`processor_type` keywords, `load_pipeline` applied to the
document `save_pipeline` wrote raises `TypeError` at the first
constructor call `processor_class(name=..., processor_type=...)`
(pipeline_manager.py lines 336-339) instead of reconstructing the
graph's nodes, edges, enabled flags and parameter maps. -/
theorem save_load_raises_type_error (registry : List (String × ProcessorClass))
    (p : Pipeline) (hne : p.nodes ≠ [])
    (hreg : ∀ x ∈ p.nodes,
      (assoc_lookup registry x.2.processor.processor_type).isSome = true)
    (hctor : ∀ c ∈ registry, c.2.init_accepts_kwargs = false) :
    load_pipeline registry (save_pipeline p) = Except.error type_error_msg := by
  cases hn : p.nodes with
  | nil => exact absurd hn hne
  | cons e rest =>
    have hx : e ∈ p.nodes := by rw [hn]; exact List.mem_cons_self e rest
    have hs := hreg e hx
    cases hlk : assoc_lookup registry e.2.processor.processor_type with
    | none => rw [hlk] at hs; simp at hs
    | some cls =>
      obtain ⟨k2, hk2⟩ := assoc_lookup_mem hlk
      have hfalse : cls.init_accepts_kwargs = false := hctor (k2, cls) hk2
      show load_pipeline_go registry (save_pipeline p).2
        (p.nodes.map (fun x => (x.1, save_node x.2)))
        (empty_pipeline (registry.map (fun r => (r.1, r.2.defaults)))) =
        Except.error type_error_msg
      rw [hn, List.map_cons, load_pipeline_go_cons]
      have hcast : (save_node e.2).processor_type = e.2.processor.processor_type := rfl
      rw [hcast, hlk]
      simp [hfalse]

/-- Witness: the single-Brightness-node pipeline, saved and then loaded
against the backend's registry, crashes with the `TypeError`. -/
theorem save_load_raises_type_error_witness :
    demo_saved_pipeline.nodes ≠ [] ∧
    (∀ x ∈ demo_saved_pipeline.nodes,
      (assoc_lookup shipped_registry x.2.processor.processor_type).isSome = true) ∧
    (∀ c ∈ shipped_registry, c.2.init_accepts_kwargs = false) ∧
    load_pipeline shipped_registry (save_pipeline demo_saved_pipeline) =
      Except.error type_error_msg :=
  ⟨by decide, by decide, by decide,
    save_load_raises_type_error shipped_registry demo_saved_pipeline
      (by decide) (by decide) (by decide)⟩

end PhotoProc
